import Mathlib

/-!
Verification of the claims in `CLAIMS.json` against a shallow embedding of the
`draw_mountain` conversion scripts
(`scripts/build_jeju_overlay_data.py`, `scripts/build_seoul_overlay_from_shp.py`,
`scripts/build_region_overlays_from_shp.py`).

Modelling conventions:
* a byte buffer is a `List Nat` (entries are byte values; encoders only produce
  values `< 256`);
* Python code that raises an exception is embedded as a function into `Option`,
  `none` marking the raise;
* IEEE-754 doubles read from buffers are passed through an abstract decoding
  parameter `d : Nat → F` mapping the raw 64-bit pattern to an arbitrary
  coordinate type, so that structural parsing facts hold for every
  interpretation of the payload; the concrete finite-double decoder
  `decodeF64` is supplied where a claim fixes numeric values;
* arithmetic on coordinates (the simplifiers, the projection) is over `ℚ`,
  the exact-arithmetic idealization of the scripts' float arithmetic;
* `math.sin`/`cos`/`tan`/`sqrt`/`pi` are abstract parameters (a `RealFns`
  record), since the claims proved about the projection hold for every
  interpretation of those functions.
-/

/-! ## Byte-buffer primitives

Little/big-endian integer extraction as performed by `struct.unpack` /
`struct.unpack_from` on slices of the input buffer. -/

/-- Little-endian value of a byte list: `bs[0] + 256*bs[1] + ...`. -/
def bytesLE (bs : List Nat) : Nat :=
  bs.foldr (fun b acc => b + 256 * acc) 0

/-- Big-endian value of a byte list. -/
def bytesBE (bs : List Nat) : Nat :=
  bytesLE bs.reverse

/-- `struct.unpack_from` style bounded read: the `len` bytes starting at
`off`, or `none` when the buffer is too short (Python raises
`struct.error`). -/
def readBytes (data : List Nat) (off len : Nat) : Option (List Nat) :=
  if off + len ≤ data.length then some ((data.drop off).take len) else none

/-- Unsigned 32-bit read (`"<I"` or `">I"`). -/
def readU32 (little : Bool) (data : List Nat) (off : Nat) : Option Nat :=
  (readBytes data off 4).map (fun bs => if little then bytesLE bs else bytesBE bs)

/-- Raw 64-bit pattern read (`"<d"` / `">d"` before IEEE interpretation). -/
def readW64 (little : Bool) (data : List Nat) (off : Nat) : Option Nat :=
  (readBytes data off 8).map (fun bs => if little then bytesLE bs else bytesBE bs)

/-- Two's-complement reinterpretation of a 32-bit unsigned value (`"<i"`). -/
def toInt32 (n : Nat) : ℤ :=
  if n < 2 ^ 31 then (n : ℤ) else (n : ℤ) - 2 ^ 32

/-- Signed little-endian 32-bit read (`"<i"`). -/
def readI32LE (data : List Nat) (off : Nat) : Option ℤ :=
  (readU32 true data off).map toInt32

/-- Little-endian 16-bit encoder. -/
def le16 (n : Nat) : List Nat :=
  [n % 256, n / 256 % 256]

/-- Little-endian 32-bit encoder. -/
def le32 (n : Nat) : List Nat :=
  [n % 256, n / 256 % 256, n / 2 ^ 16 % 256, n / 2 ^ 24 % 256]

/-- Little-endian 64-bit encoder. -/
def le64 (n : Nat) : List Nat :=
  [n % 256, n / 256 % 256, n / 2 ^ 16 % 256, n / 2 ^ 24 % 256,
   n / 2 ^ 32 % 256, n / 2 ^ 40 % 256, n / 2 ^ 48 % 256, n / 2 ^ 56 % 256]

/-! ## GeoPackage geometry extractor

Embeds `_gpkg_blob_to_wkb` (build_jeju_overlay_data.py, lines 46-54). -/

/-- The fixed envelope-size dictionary `{0: 0, 1: 32, 2: 48, 3: 48, 4: 64}`;
`.get` on a missing key is `none`. -/
def envelopeBytesTable : Nat → Option Nat
  | 0 => some 0
  | 1 => some 32
  | 2 => some 48
  | 3 => some 48
  | 4 => some 64
  | _ => none

/-- `_gpkg_blob_to_wkb`: check the `GP` magic (bytes `0x47 0x50`) and minimum
length, take the envelope code from bits 1-3 of the flags byte `blob[3]`, and
strip the `8 + envelope_bytes` header.  `none` models the `RuntimeError`
raises. -/
def _gpkg_blob_to_wkb (blob : List Nat) : Option (List Nat) :=
  if blob.length < 8 ∨ blob.take 2 ≠ [71, 80] then none
  else
    let flags := blob.getD 3 0
    let envelope_code := flags / 2 % 8
    match envelopeBytesTable envelope_code with
    | none => none
    | some envelope_bytes => some (blob.drop (8 + envelope_bytes))

/-! ## Planar projection (Korea 2000 Unified)

Embeds the module constants and `_meridional_arc` / `_lon_lat_to_unified`
(build_jeju_overlay_data.py, lines 163-218).  `math.sin`, `math.cos`,
`math.tan`, `math.sqrt` and `math.pi` are abstract parameters collected in a
`RealFns` record: the claims proved below hold for every interpretation of
these functions, in particular for the real ones. -/

/-- Abstract interpretation of the `math` functions used by the projection. -/
structure RealFns where
  sin : ℚ → ℚ
  cos : ℚ → ℚ
  tan : ℚ → ℚ
  sqrt : ℚ → ℚ
  pi : ℚ

namespace Proj

def A : ℚ := 6378137.0

def F : ℚ := 1.0 / 298.257222101

def E2 : ℚ := 2 * F - F * F

def EP2 : ℚ := E2 / (1.0 - E2)

def K0 : ℚ := 0.9996

/-- `math.radians`. -/
def radians (fns : RealFns) (deg : ℚ) : ℚ := deg * (fns.pi / 180)

def LAT0 (fns : RealFns) : ℚ := radians fns 38.0

def LON0 (fns : RealFns) : ℚ := radians fns 127.5

def FALSE_EASTING : ℚ := 1000000.0

def FALSE_NORTHING : ℚ := 2000000.0

/-- `_meridional_arc`: the fixed 4-term series in `E2`. -/
def _meridional_arc (fns : RealFns) (phi : ℚ) : ℚ :=
  let e4 := E2 * E2
  let e6 := e4 * E2
  A * ((1 - E2 / 4 - 3 * e4 / 64 - 5 * e6 / 256) * phi
    - (3 * E2 / 8 + 3 * e4 / 32 + 45 * e6 / 1024) * fns.sin (2 * phi)
    + (15 * e4 / 256 + 45 * e6 / 1024) * fns.sin (4 * phi)
    - (35 * e6 / 3072) * fns.sin (6 * phi))

/-- The meridional arc at the origin latitude, a derived constant computed
once at module load. -/
def M0 (fns : RealFns) : ℚ := _meridional_arc fns (LAT0 fns)

/-- `_lon_lat_to_unified`: forward ellipsoidal transverse-Mercator-style
projection into the fixed planar system. -/
def _lon_lat_to_unified (fns : RealFns) (lon_deg lat_deg : ℚ) : ℚ × ℚ :=
  let phi := radians fns lat_deg
  let lam := radians fns lon_deg
  let sin_phi := fns.sin phi
  let cos_phi := fns.cos phi
  let tan_phi := fns.tan phi
  let n := A / fns.sqrt (1.0 - E2 * sin_phi * sin_phi)
  let t := tan_phi * tan_phi
  let c := EP2 * cos_phi * cos_phi
  let a_term := cos_phi * (lam - LON0 fns)
  let m := _meridional_arc fns phi
  let x := FALSE_EASTING + K0 * n * (a_term
    + (1 - t + c) * a_term ^ 3 / 6
    + (5 - 18 * t + t * t + 72 * c - 58 * EP2) * a_term ^ 5 / 120)
  let y := FALSE_NORTHING + K0 * (m - M0 fns
    + n * tan_phi * (a_term * a_term / 2
      + (5 - t + 9 * c + 4 * c * c) * a_term ^ 4 / 24
      + (61 - 58 * t + t * t + 600 * c - 330 * EP2) * a_term ^ 6 / 720))
  (x, y)

end Proj

/-! ## WKB polyline decoder

Embeds `_parse_lines_from_wkb` (build_jeju_overlay_data.py, lines 57-108).
The recursion of the Python function advances the offset by at least 9 bytes
per nesting level, so a fuel of `data.length + 1` can never be exhausted on a
buffer the Python code terminates on; running out of fuel is `none`, in the
same error monad as the `RuntimeError` raises. -/

/-- IEEE-754 binary64 interpretation of a 64-bit pattern as an exact rational:
sign bit 63, biased exponent bits 52-62, fraction bits 0-51; `none` for the
exponent 2047 patterns (infinities and NaNs), which have no rational value. -/
def decodeF64 (w : Nat) : Option ℚ :=
  let sign : Nat := w / 2 ^ 63 % 2
  let expo : Nat := w / 2 ^ 52 % 2 ^ 11
  let frac : Nat := w % 2 ^ 52
  if expo = 2047 then none
  else
    let mag : ℚ :=
      if expo = 0 then (frac : ℚ) / 2 ^ 1074
      else (2 ^ 52 + frac : ℚ) * 2 ^ expo / 2 ^ 1075
    some (if sign = 1 then -mag else mag)

/-- The per-point loop of the LineString branch: read `x` at the offset and
`y` 8 bytes later, advance by 16 bytes plus 8 for each of the Z/M ordinates
(which are skipped without being read). -/
def readPoints {F : Type} (d : Nat → F) (little : Bool) (has_z has_m : Bool)
    (data : List Nat) : Nat → Nat → Option (List (F × F) × Nat)
  | 0, offset => some ([], offset)
  | n + 1, offset =>
    match readW64 little data offset, readW64 little data (offset + 8) with
    | some wx, some wy =>
      let offset1 := offset + 16
      let offset2 := if has_z then offset1 + 8 else offset1
      let offset3 := if has_m then offset2 + 8 else offset2
      (readPoints d little has_z has_m data n offset3).map
        (fun r => ((d wx, d wy) :: r.1, r.2))
    | _, _ => none

/-- The child loop of the MultiLineString branch: `n` recursive decodes at
the advancing offset, flattening (`lines.extend`) the children's polylines. -/
def parseChildren {L : Type} (p : Nat → Option (List L × Nat)) :
    Nat → Nat → Option (List L × Nat)
  | 0, offset => some ([], offset)
  | n + 1, offset =>
    match p offset with
    | none => none
    | some (child, offset1) =>
      (parseChildren p n offset1).map (fun r => (child ++ r.1, r.2))

/-- `_parse_lines_from_wkb`, fuelled: byte-order flag (0 big / 1 little,
anything else raises), 4-byte geometry type whose thousands digit selects the
Z/M dimensionality, then a LineString (base type 2) or MultiLineString (base
type 5) body; other base types raise. -/
def parseWkbAux {F : Type} (d : Nat → F) (data : List Nat) :
    Nat → Nat → Option (List (List (F × F)) × Nat)
  | 0, _ => none
  | fuel + 1, offset =>
    match data[offset]? with
    | none => none
    | some byte_order =>
      if byte_order = 0 ∨ byte_order = 1 then
        let little := byte_order == 1
        match readU32 little data (offset + 1) with
        | none => none
        | some geom_type =>
          let dims :=
            if geom_type ≥ 3000 then (geom_type - 3000, true, true)
            else if geom_type ≥ 2000 then (geom_type - 2000, false, true)
            else if geom_type ≥ 1000 then (geom_type - 1000, true, false)
            else (geom_type, false, false)
          let base_type := dims.1
          let has_z := dims.2.1
          let has_m := dims.2.2
          if base_type = 2 then
            match readU32 little data (offset + 5) with
            | none => none
            | some n =>
              (readPoints d little has_z has_m data n (offset + 9)).map
                (fun r => ([r.1], r.2))
          else if base_type = 5 then
            match readU32 little data (offset + 5) with
            | none => none
            | some n => parseChildren (parseWkbAux d data fuel) n (offset + 9)
          else none
      else none

/-- `_parse_lines_from_wkb` at its default call shape. -/
def _parse_lines_from_wkb {F : Type} (d : Nat → F) (data : List Nat)
    (offset : Nat) : Option (List (List (F × F)) × Nat) :=
  parseWkbAux d data (data.length + 1) offset

/-- Little-endian WKB encoding of one `(x, y)` coordinate pair given as raw
64-bit patterns. -/
def encodePoint (p : Nat × Nat) : List Nat :=
  le64 p.1 ++ le64 p.2

/-- Little-endian WKB encoding of a 2-D LineString. -/
def encodeLineString (pts : List (Nat × Nat)) : List Nat :=
  1 :: (le32 2 ++ le32 pts.length ++ pts.flatMap encodePoint)

/-- Little-endian WKB encoding of a MultiLineString of 2-D LineStrings. -/
def encodeMultiLineString (cs : List (List (Nat × Nat))) : List Nat :=
  1 :: (le32 5 ++ le32 cs.length ++ cs.flatMap encodeLineString)

/-- The fixed test vector of the scenario in C1:
`01 02000000 02000000` followed by the doubles 0.0, 0.0, 1.0, 1.0. -/
def wkbScenarioBytes : List Nat :=
  [1, 2, 0, 0, 0, 2, 0, 0, 0,
   0, 0, 0, 0, 0, 0, 0, 0,
   0, 0, 0, 0, 0, 0, 0, 0,
   0, 0, 0, 0, 0, 0, 240, 63,
   0, 0, 0, 0, 0, 0, 240, 63]

/-! ## Fast simplifier (spacing + cap)

Embeds `_simplify_line_fast` (build_region_overlays_from_shp.py,
lines 63-96).  Coordinates are exact rationals. -/

/-- A 2-D point. -/
abbrev Pt := ℚ × ℚ

/-- Squared distance `dx*dx + dy*dy` between two points. -/
def d2 (a b : Pt) : ℚ :=
  (b.1 - a.1) * (b.1 - a.1) + (b.2 - a.2) * (b.2 - a.2)

/-- The interior scan of the spacing pass: keep a point only when its squared
distance from the last kept point is at least `spacing_sq`. -/
def spacingFilter (spacing_sq : ℚ) : Pt → List Pt → List Pt
  | _, [] => []
  | last, p :: rest =>
    if spacing_sq ≤ d2 last p then p :: spacingFilter spacing_sq p rest
    else spacingFilter spacing_sq last rest

/-- The kept sequence of the spacing pass before the final endpoint append:
`[points[0]]` extended over the interior points `points[1:-1]`. -/
def spacingKern (points : List Pt) (min_spacing : ℚ) : List Pt :=
  match points with
  | [] => []
  | p0 :: rest => p0 :: spacingFilter (min_spacing * min_spacing) p0 rest.dropLast

/-- The `simplified` list of `_simplify_line_fast`: the spacing pass followed
by `simplified.append(points[-1])` when the last kept point is not already
the original last point. -/
def preDownsample (points : List Pt) (min_spacing : ℚ) : List Pt :=
  let kern := spacingKern points min_spacing
  if kern.getLastD (0, 0) ≠ points.getLastD (0, 0) then
    kern ++ [points.getLastD (0, 0)]
  else kern

/-- Python `range(start, stop, step)` for a positive `step`. -/
def pyRange (start stop step : Nat) : List Nat :=
  List.range' start ((stop - start + step - 1) / step) step

/-- `_simplify_line_fast`: inputs of at most 2 points are returned unchanged;
otherwise the spacing pass runs, and if its result still exceeds
`max_points`, the interior is stride-sampled with
`step = ceil((len - 2) / (max_points - 2))` (clamped to at least 1) and the
original last point re-appended when missing.  `none` models the
`ZeroDivisionError` raised by the stride computation when
`max_points = 2`. -/
def _simplify_line_fast (points : List Pt) (min_spacing : ℚ)
    (max_points : ℤ) : Option (List Pt) :=
  if points.length ≤ 2 then some points
  else
    let simplified := preDownsample points min_spacing
    if (simplified.length : ℤ) ≤ max_points then some simplified
    else if max_points = 2 then none
    else
      let step0 : ℤ :=
        Int.ceil (((simplified.length : ℚ) - 2) / ((max_points : ℚ) - 2))
      let step : ℤ := if step0 < 1 then 1 else step0
      let stepN : Nat := step.toNat
      let trimmed0 := simplified.headD (0, 0) ::
        (pyRange 1 (simplified.length - 1) stepN).map
          (fun i => simplified.getD i (0, 0))
      let trimmed :=
        if trimmed0.getLastD (0, 0) ≠ simplified.getLastD (0, 0) then
          trimmed0 ++ [simplified.getLastD (0, 0)]
        else trimmed0
      some trimmed

/-! ## Shapefile polyline record decoding

Embeds the per-record content decoding of `read_shp_polylines`
(build_seoul_overlay_from_shp.py, lines 143-167, and identically
build_region_overlays_from_shp.py, lines 190-218): the body of the record
loop, from the record shape-type check to the part splitting.  Payload
doubles go through the abstract interpretation `d`, as in the WKB decoder. -/

/-- Python slice-index normalization: negative indices count from the end,
all indices clamp to `[0, n]`. -/
def pySliceIdx (n : Nat) (a : ℤ) : Nat :=
  if a < 0 then (max 0 ((n : ℤ) + a)).toNat else min a.toNat n

/-- Python list slicing `l[a:b]`. -/
def pySlice {α : Type} (l : List α) (a b : ℤ) : List α :=
  (l.take (pySliceIdx l.length b)).drop (pySliceIdx l.length a)

/-- Unsigned little-endian 32-bit value at a byte offset (no bounds check:
used only after the enclosing reads have been bounds-checked). -/
def u32At (content : List Nat) (off : Nat) : Nat :=
  bytesLE ((content.drop off).take 4)

/-- Signed little-endian 32-bit value at a byte offset. -/
def i32At (content : List Nat) (off : Nat) : ℤ :=
  toInt32 (u32At content off)

/-- Raw little-endian 64-bit pattern at a byte offset. -/
def u64At (content : List Nat) (off : Nat) : Nat :=
  bytesLE ((content.drop off).take 8)

/-- The part splitting of the record loop: segment `i` spans
`points[parts[i] : parts[i + 1]]`, the last segment runs to `numPoints`, and
segments with fewer than 2 points are discarded. -/
def partsSplit {α : Type} (parts : List ℤ) (numPoints : ℤ) (points : List α) :
    List (List α) :=
  ((List.range parts.length).map (fun i =>
    pySlice points (parts.getD i 0)
      (if i + 1 < parts.length then parts.getD (i + 1) 0 else numPoints))).filter
    (fun line => 2 ≤ line.length)

/-- One record's content decoding: shape type at offset 0 (0 = null shape and
non-polyline types tolerantly yield an empty record), `numParts` at 36,
`numPoints` at 40, the part-start array of `numParts` int32 at 44, then the
point array immediately after the parts array; `none` models the
`struct.error` raises on truncated or negative-count reads. -/
def recordContentToLines {F : Type} (d : Nat → F) (content : List Nat) :
    Option (List (List (F × F))) :=
  match readI32LE content 0 with
  | none => none
  | some rec_shape_type =>
    if rec_shape_type = 0 then some []
    else if rec_shape_type ≠ 3 ∧ rec_shape_type ≠ 13 ∧ rec_shape_type ≠ 23 then
      some []
    else
      match readI32LE content 36, readI32LE content 40 with
      | some num_parts, some num_points =>
        if num_parts < 0 then none
        else if content.length < 44 + 4 * num_parts.toNat then none
        else
          let parts := (List.range num_parts.toNat).map
            (fun i => i32At content (44 + 4 * i))
          let points_off := 44 + 4 * num_parts.toNat
          let npts := num_points.toNat
          if content.length < points_off + 16 * npts ∧ npts ≠ 0 then none
          else
            let points := (List.range npts).map (fun i =>
              (d (u64At content (points_off + 16 * i)),
               d (u64At content (points_off + 16 * i + 8))))
            some (partsSplit parts num_points points)
      | _, _ => none

/-- Follows the words of claim C4, not the source: "reads the
part-start-index array of numParts 32-bit integers at content byte offset
36, reads the point array of little-endian double pairs starting immediately
after the parts array".  `numParts` and `numPoints` are still read at their
standard positions 36 and 40 (the claim does not relocate them), but the
parts array itself is taken at offset 36 and the point array immediately
after it, i.e. at `36 + 4*numParts`.  Compared against
`recordContentToLines` (the source reads the parts array at offset 44) to
settle claim C4. -/
def recordContentToLinesClaimed {F : Type} (d : Nat → F) (content : List Nat) :
    Option (List (List (F × F))) :=
  match readI32LE content 0 with
  | none => none
  | some rec_shape_type =>
    if rec_shape_type = 0 then some []
    else if rec_shape_type ≠ 3 ∧ rec_shape_type ≠ 13 ∧ rec_shape_type ≠ 23 then
      some []
    else
      match readI32LE content 36, readI32LE content 40 with
      | some num_parts, some num_points =>
        if num_parts < 0 then none
        else if content.length < 36 + 4 * num_parts.toNat then none
        else
          let parts := (List.range num_parts.toNat).map
            (fun i => i32At content (36 + 4 * i))
          let points_off := 36 + 4 * num_parts.toNat
          let npts := num_points.toNat
          if content.length < points_off + 16 * npts ∧ npts ≠ 0 then none
          else
            let points := (List.range npts).map (fun i =>
              (d (u64At content (points_off + 16 * i)),
               d (u64At content (points_off + 16 * i + 8))))
            some (partsSplit parts num_points points)
      | _, _ => none

/-- Encoder for one well-formed polyline record content (shape type 3, a
zeroed 32-byte bounding box, `numParts`, `numPoints`, the parts array, the
2-D point array). -/
def encodeShpRecordContent (parts : List Nat) (pts : List (Nat × Nat)) :
    List Nat :=
  le32 3 ++ List.replicate 32 0 ++ le32 parts.length ++ le32 pts.length ++
    parts.flatMap le32 ++ pts.flatMap encodePoint

/-! ## DBF attribute reader

Embeds `read_dbf_contours` (build_seoul_overlay_from_shp.py, lines 70-116,
and identically build_region_overlays_from_shp.py, lines 116-163).  Python's
`float()` string parsing is an abstract parameter
`pf : List Nat → Option ℚ` returning the exact value of the parsed float
(`none` models `ValueError`; strings parsing to an infinity, on which the
code's uncaught `round` `OverflowError` would escape, are outside the
model); every claim proved below holds for each interpretation of `pf`. -/

/-- One 32-byte field descriptor: null-terminated 11-byte name, type code
byte 11, declared length byte 16, decimal count byte 17. -/
structure DbfField where
  name : List Nat
  ftype : Nat
  flen : Nat
  fdec : Nat

/-- `bytes.decode("ascii", "ignore")`: non-ASCII bytes are dropped. -/
def asciiIgnore (bs : List Nat) : List Nat :=
  bs.filter (fun c => c < 128)

/-- `str.upper` on ASCII text. -/
def upperAscii (bs : List Nat) : List Nat :=
  bs.map (fun c => if 97 ≤ c ∧ c ≤ 122 then c - 32 else c)

/-- ASCII whitespace, as stripped by `str.strip`. -/
def isSpaceByte (c : Nat) : Bool :=
  c = 32 ∨ (9 ≤ c ∧ c ≤ 13)

/-- `str.strip`. -/
def stripBytes (bs : List Nat) : List Nat :=
  ((bs.dropWhile isSpaceByte).reverse.dropWhile isSpaceByte).reverse

/-- Python `round` (round-half-to-even) of an exact value; `int()` of the
result is the result itself. -/
def roundHalfEven (q : ℚ) : ℤ :=
  if q - ⌊q⌋ < 1 / 2 then ⌊q⌋
  else if 1 / 2 < q - ⌊q⌋ then ⌊q⌋ + 1
  else if ⌊q⌋ % 2 = 0 then ⌊q⌋ else ⌊q⌋ + 1

/-- The field-descriptor loop: 32-byte descriptors from absolute offset 32
until a `0x0D` terminator byte; EOF before the terminator raises, as does a
descriptor shorter than 18 bytes (`desc[11]`/`desc[16]`/`desc[17]`
`IndexError`).  The loop advances 32 bytes per iteration, so the
`data.length + 1` fuel it is run with can never be exhausted. -/
def readFieldsLoop (data : List Nat) : Nat → Nat → Option (List DbfField)
  | 0, _ => none
  | fuel + 1, off =>
    let desc := (data.drop off).take 32
    if desc.length = 0 then none
    else if desc.getD 0 0 = 13 then some []
    else if desc.length < 18 then none
    else
      let fld : DbfField :=
        ⟨asciiIgnore ((desc.take 11).takeWhile (fun b => b ≠ 0)),
          desc.getD 11 0, desc.getD 16 0, desc.getD 17 0⟩
      (readFieldsLoop data fuel (off + 32)).map (fun fs => fld :: fs)

/-- The `CONT` byte range of one record: the field-width walk starts at
position 1 (after the deletion-marker byte) and records the slice at the
`CONT` field's index. -/
def contSlice (fields : List DbfField) (cont_idx : Nat) (rcd : List Nat) :
    List Nat :=
  let pos := 1 + (((fields.take cont_idx).map (fun f => f.flen)).sum)
  (rcd.drop pos).take ((fields.getD cont_idx ⟨[], 0, 0, 0⟩).flen)

/-- One record's attribute value: the deletion marker `0x2A` yields `0`
without any field parsing; otherwise the `CONT` slice is ASCII-decoded,
stripped, parsed as a float and rounded, a `ValueError` yielding `0`.
`none` is the `IndexError` on `rec[0]` (possible only for an empty
record). -/
def dbfRecordValue (pf : List Nat → Option ℚ) (fields : List DbfField)
    (cont_idx : Nat) (rcd : List Nat) : Option ℤ :=
  match rcd with
  | [] => none
  | b :: _ =>
    if b = 42 then some 0
    else
      match pf (stripBytes (asciiIgnore (contSlice fields cont_idx rcd))) with
      | some q => some (roundHalfEven q)
      | none => some 0

/-- The record loop: `num_records` sequential fixed-width reads starting at
`header_len`; a short read stops the loop, keeping the records read so
far. -/
def readRecordsLoop (pf : List Nat → Option ℚ) (data : List Nat)
    (fields : List DbfField) (cont_idx : Nat) (record_len : Nat) :
    Nat → Nat → Option (List ℤ)
  | 0, _ => some []
  | k + 1, pos =>
    let rcd := (data.drop pos).take record_len
    if rcd.length < record_len then some []
    else
      match dbfRecordValue pf fields cont_idx rcd with
      | none => none
      | some v =>
        (readRecordsLoop pf data fields cont_idx record_len k
          (pos + record_len)).map (fun vs => v :: vs)

/-- `read_dbf_contours`: 32-byte header (record count at offset 4, header
length at 8, record length at 10 — a file shorter than 12 bytes fails the
header unpacking), the field-descriptor table, the case-insensitive `CONT`
lookup (`none` models the `RuntimeError` when absent), then the record
loop seeked to `header_len`. -/
def read_dbf_contours (pf : List Nat → Option ℚ) (data : List Nat) :
    Option (List ℤ) :=
  if data.length < 12 then none
  else
    let header := data.take 32
    let num_records := bytesLE ((header.drop 4).take 4)
    let header_len := bytesLE ((header.drop 8).take 2)
    let record_len := bytesLE ((header.drop 10).take 2)
    match readFieldsLoop data (data.length + 1) 32 with
    | none => none
    | some fields =>
      match fields.findIdx? (fun fd => upperAscii fd.name == [67, 79, 78, 84]) with
      | none => none
      | some cont_idx =>
        readRecordsLoop pf data fields cont_idx record_len num_records header_len

/-- Encoder for one 32-byte field descriptor. -/
def encodeDbfField (f : DbfField) : List Nat :=
  (f.name.take 11 ++ List.replicate (11 - f.name.length) 0) ++
    f.ftype :: 0 :: 0 :: 0 :: 0 :: f.flen :: f.fdec :: List.replicate 14 0

/-- Encoder for a well-formed DBF file: 32-byte header, the field
descriptors, the `0x0D` terminator, then the fixed-width records. -/
def encodeDbf (fields : List DbfField) (record_len : Nat)
    (records : List (List Nat)) : List Nat :=
  [3, 0, 0, 0] ++ le32 records.length ++ le16 (33 + 32 * fields.length) ++
    le16 record_len ++ List.replicate 20 0 ++
    fields.flatMap encodeDbfField ++ [13] ++ records.flatten

/-- Well-formedness of an encodable field descriptor: a printable-ASCII
name of at most 11 bytes and byte-sized attributes. -/
def DbfFieldWF (f : DbfField) : Prop :=
  f.name.length ≤ 11 ∧ (∀ b ∈ f.name, 32 ≤ b ∧ b < 128) ∧
    f.ftype < 256 ∧ f.flen < 256 ∧ f.fdec < 256

/-! ## Exact (tolerance) simplifier

Embeds `_distance_sq_point_to_segment` and `_simplify_line`
(build_seoul_overlay_from_shp.py, lines 19-63, and identically
build_jeju_overlay_data.py, lines 111-151).  The worklist (`stack`) loop is
embedded as a recursive function on the stack and the `keep` mask; its
termination measure is the total interior size of the stacked ranges,
lexicographically with the stack length. -/

/-- `_distance_sq_point_to_segment`: squared distance from `p` to the
segment `a`-`b` via the clamped projection parameter; degenerates to
point-to-point distance when `a = b`. -/
def _distance_sq_point_to_segment (p a b : Pt) : ℚ :=
  let dx := b.1 - a.1
  let dy := b.2 - a.2
  if dx = 0 ∧ dy = 0 then (p.1 - a.1) ^ 2 + (p.2 - a.2) ^ 2
  else
    let t := ((p.1 - a.1) * dx + (p.2 - a.2) * dy) / (dx * dx + dy * dy)
    let t2 := max 0 (min 1 t)
    let qx := a.1 + t2 * dx
    let qy := a.2 + t2 * dy
    (p.1 - qx) ^ 2 + (p.2 - qy) ^ 2

/-- The interior scan of one popped range: fold over the interior indices,
updating the running `(max_dist_sq, max_idx)` accumulator on strictly
greater distances (initial accumulator `(-1, -1)`). -/
def findMaxAux (pts : List Pt) (a b : Pt) : List Nat → ℚ × ℤ → ℚ × ℤ
  | [], acc => acc
  | k :: ks, acc =>
    let dist_sq := _distance_sq_point_to_segment (pts.getD k (0, 0)) a b
    if acc.1 < dist_sq then findMaxAux pts a b ks (dist_sq, (k : ℤ))
    else findMaxAux pts a b ks acc

/-- The `for k in range(i + 1, j)` scan of `_simplify_line`. -/
def findMax (pts : List Pt) (i j : Nat) : ℚ × ℤ :=
  findMaxAux pts (pts.getD i (0, 0)) (pts.getD j (0, 0))
    (List.range' (i + 1) (j - i - 1)) (-1, -1)

/-- The index stored by the scan is the initial one or one of the scanned
interior indices.  (A proof used by the termination arguments below, which
is why it precedes the definitions.) -/
def findMaxAux_idx (pts : List Pt) (a b : Pt) :
    ∀ (ks : List Nat) (acc : ℚ × ℤ),
      (findMaxAux pts a b ks acc).2 = acc.2 ∨
        ∃ k ∈ ks, (findMaxAux pts a b ks acc).2 = (k : ℤ) := by
  intro ks
  induction ks with
  | nil =>
    intro acc
    exact Or.inl rfl
  | cons k ks ih =>
    intro acc
    rw [findMaxAux]
    by_cases h : acc.1 < _distance_sq_point_to_segment (pts.getD k (0, 0)) a b
    · rw [if_pos h]
      rcases ih (_, (k : ℤ)) with h' | ⟨k', hk', h'⟩
      · exact Or.inr ⟨k, List.mem_cons_self k ks, h'⟩
      · exact Or.inr ⟨k', List.mem_cons_of_mem k hk', h'⟩
    · rw [if_neg h]
      rcases ih acc with h' | ⟨k', hk', h'⟩
      · exact Or.inl h'
      · exact Or.inr ⟨k', List.mem_cons_of_mem k hk', h'⟩

/-- Bounds on a non-sentinel scan result: the index lies strictly inside
`(i, j)`.  (A proof used by the termination arguments below.) -/
def findMax_idx_bounds (pts : List Pt) (i j : Nat)
    (h : (findMax pts i j).2 ≠ -1) :
    i < (findMax pts i j).2.toNat ∧ (findMax pts i j).2.toNat < j := by
  rcases findMaxAux_idx pts (pts.getD i (0, 0)) (pts.getD j (0, 0))
    (List.range' (i + 1) (j - i - 1)) (-1, -1) with h' | ⟨k, hk, h'⟩
  · exact absurd h' h
  · rw [List.mem_range'] at hk
    obtain ⟨c, hc, hk⟩ := hk
    have : (findMax pts i j).2 = (k : ℤ) := h'
    rw [this, Int.toNat_natCast]
    omega

/-- Total interior size of the stacked ranges. -/
def stackMeasure (stack : List (Nat × Nat)) : Nat :=
  (stack.map (fun e => e.2 - e.1 - 1)).sum

/-- The worklist loop of `_simplify_line`: pop a range, scan its interior;
if the maximum squared distance strictly exceeds the squared tolerance (and
an interior index exists), mark that index kept and push the two
sub-ranges, the upper one on top (Python appends `(i, max_idx)` then
`(max_idx, j)` and pops from the end). -/
def simplifyLoop (pts : List Pt) (tol_sq : ℚ) :
    List (Nat × Nat) → List Bool → List Bool
  | [], keep => keep
  | (i, j) :: stack, keep =>
    let fm := findMax pts i j
    if h : tol_sq < fm.1 ∧ fm.2 ≠ -1 then
      simplifyLoop pts tol_sq ((fm.2.toNat, j) :: (i, fm.2.toNat) :: stack)
        (keep.set fm.2.toNat true)
    else simplifyLoop pts tol_sq stack keep
  termination_by stack _ => (stackMeasure stack, stack.length)
  decreasing_by
  · obtain ⟨hm1, hm2⟩ := findMax_idx_bounds pts i j h.2
    apply Prod.Lex.left
    simp only [stackMeasure, List.map_cons, List.sum_cons]
    omega
  · have hle : stackMeasure stack ≤ stackMeasure ((i, j) :: stack) := by
      simp only [stackMeasure, List.map_cons, List.sum_cons]
      omega
    rcases lt_or_eq_of_le hle with hlt | heq
    · exact Prod.Lex.left _ _ hlt
    · rw [heq]
      exact Prod.Lex.right _ (by simp)

/-- The final comprehension
`[pt for idx, pt in enumerate(points) if keep[idx]]`. -/
def maskFilter : List Bool → List Pt → List Pt
  | k :: ks, p :: ps => if k then p :: maskFilter ks ps else maskFilter ks ps
  | _, _ => []

/-- The final `keep` mask of `_simplify_line` on an input with more than two
points: endpoints pre-marked, then the worklist run from the full range. -/
def simplifyKeep (points : List Pt) (tol_sq : ℚ) : List Bool :=
  simplifyLoop points tol_sq [(0, points.length - 1)]
    (((List.replicate points.length false).set 0 true).set
      (points.length - 1) true)

/-- `_simplify_line`: inputs of at most 2 points are returned unchanged;
otherwise the kept points of the worklist run, in original order. -/
def _simplify_line (points : List Pt) (tolerance : ℚ) : List Pt :=
  if points.length ≤ 2 then points
  else maskFilter (simplifyKeep points (tolerance * tolerance)) points

/-- Recursive characterization of the worklist: the set of interior indices
kept within a range — the scanned maximum when it exceeds the tolerance,
together with the kept sets of the two sub-ranges. -/
def dpKeepSet (pts : List Pt) (tol_sq : ℚ) : Nat → Nat → Finset Nat
  | i, j =>
    let fm := findMax pts i j
    if h : tol_sq < fm.1 ∧ fm.2 ≠ -1 then
      {fm.2.toNat} ∪ dpKeepSet pts tol_sq i fm.2.toNat ∪
        dpKeepSet pts tol_sq fm.2.toNat j
    else ∅
  termination_by i j => j - i
  decreasing_by
  · obtain ⟨hm1, hm2⟩ := findMax_idx_bounds pts i j h.2
    omega
  · obtain ⟨hm1, hm2⟩ := findMax_idx_bounds pts i j h.2
    omega

/-- Reachable ranges of the worklist recursion started from the full
range of an `n`-point polyline. -/
inductive IsNode (pts : List Pt) (t : ℚ) (n : Nat) : Nat → Nat → Prop
  | root : IsNode pts t n 0 (n - 1)
  | left {i j : Nat} : IsNode pts t n i j → t < (findMax pts i j).1 →
      (findMax pts i j).2 ≠ -1 → IsNode pts t n i (findMax pts i j).2.toNat
  | right {i j : Nat} : IsNode pts t n i j → t < (findMax pts i j).1 →
      (findMax pts i j).2 ≠ -1 → IsNode pts t n (findMax pts i j).2.toNat j

/-- The indices selected by a keep mask: the positions below `n` whose mask
entry is `true`, in increasing order.  `maskFilter ks ps` returns exactly the
points of `ps` at these positions (proved below), which is how the worklist
output is related to the recursive kept sets. -/
def maskIdx (ks : List Bool) (n : Nat) : List Nat :=
  (List.range n).filter (fun x => ks.getD x false)

/-- The kept index sequence of one `_simplify_line` worklist run. -/
def keptIdx (points : List Pt) (tol_sq : ℚ) : List Nat :=
  maskIdx (simplifyKeep points tol_sq) points.length

/-! ## Theorems -/

theorem le16_length (n : Nat) : (le16 n).length = 2 := rfl

theorem le32_length (n : Nat) : (le32 n).length = 4 := rfl

theorem le64_length (n : Nat) : (le64 n).length = 8 := rfl

theorem bytesLE_le32 (n : Nat) (h : n < 2 ^ 32) : bytesLE (le32 n) = n := by
  simp only [bytesLE, le32, List.foldr]
  omega

theorem bytesLE_le16 (n : Nat) (h : n < 2 ^ 16) : bytesLE (le16 n) = n := by
  simp only [bytesLE, le16, List.foldr]
  omega

theorem bytesLE_le64 (n : Nat) (h : n < 2 ^ 64) : bytesLE (le64 n) = n := by
  simp only [bytesLE, le64, List.foldr]
  omega

/-- Reading inside a buffer that starts with `pre` and continues with at least
`len` known bytes returns those bytes. -/
theorem readBytes_append (pre mid post : List Nat) (len : Nat)
    (h : mid.length = len) :
    readBytes (pre ++ (mid ++ post)) pre.length len = some mid := by
  unfold readBytes
  rw [if_pos]
  · congr 1
    rw [List.drop_left, ← h, List.take_left]
  · simp [List.length_append]
    omega

theorem envelopeBytesTable_eq_none_iff (c : Nat) :
    envelopeBytesTable c = none ↔ 5 ≤ c := by
  match c with
  | 0 | 1 | 2 | 3 | 4 => simp [envelopeBytesTable]
  | n + 5 => simp [envelopeBytesTable]

/-- C5: `_gpkg_blob_to_wkb` derives the envelope code from bits 1-3 of the
flags byte, maps it through the fixed table `{0:0, 1:32, 2:48, 3:48, 4:64}`,
returns the blob with the first `8 + envelopeBytes` bytes removed, and fails
exactly when the blob is shorter than 8 bytes, the magic marker is not `GP`
(`0x47 0x50`), or the envelope code is 5, 6, or 7 (the codes outside the
table's domain, since the code is always `< 8`). -/
theorem claim_C5_gpkg_envelope (blob : List Nat) :
    (_gpkg_blob_to_wkb blob = none ↔
      blob.length < 8 ∨ blob.take 2 ≠ [71, 80] ∨ 5 ≤ blob.getD 3 0 / 2 % 8) ∧
    (∀ eb, ¬ blob.length < 8 → blob.take 2 = [71, 80] →
      envelopeBytesTable (blob.getD 3 0 / 2 % 8) = some eb →
      _gpkg_blob_to_wkb blob = some (blob.drop (8 + eb))) := by
  constructor
  · by_cases hc : blob.length < 8 ∨ blob.take 2 ≠ [71, 80]
    · rw [_gpkg_blob_to_wkb, if_pos hc]
      tauto
    · rw [_gpkg_blob_to_wkb, if_neg hc]
      push_neg at hc
      show (match envelopeBytesTable (blob.getD 3 0 / 2 % 8) with
            | none => none
            | some envelope_bytes => some (blob.drop (8 + envelope_bytes))) =
          none ↔ _
      rcases htab : envelopeBytesTable (blob.getD 3 0 / 2 % 8) with _ | eb
      · rw [envelopeBytesTable_eq_none_iff] at htab
        exact iff_of_true rfl (Or.inr (Or.inr htab))
      · have hlt : ¬ (5 ≤ blob.getD 3 0 / 2 % 8) := by
          intro h5
          rw [← envelopeBytesTable_eq_none_iff] at h5
          rw [h5] at htab
          exact Option.noConfusion htab
        exact iff_of_false (by simp) (by
          push_neg
          exact ⟨not_lt.mp (by omega), hc.2, not_le.mp hlt⟩)
  · intro eb h8 hgp htab
    rw [_gpkg_blob_to_wkb, if_neg (by simp [h8, hgp])]
    show (match envelopeBytesTable (blob.getD 3 0 / 2 % 8) with
          | none => none
          | some envelope_bytes => some (blob.drop (8 + envelope_bytes))) = _
    rw [htab]

/-- C5 witness: a concrete 9-byte blob with magic `GP`, flags byte 0
(envelope code 0, zero envelope bytes), whose payload is returned intact. -/
theorem claim_C5_gpkg_envelope_witness :
    ¬ ([71, 80, 0, 0, 0, 0, 0, 0, 5] : List Nat).length < 8 ∧
      ([71, 80, 0, 0, 0, 0, 0, 0, 5] : List Nat).take 2 = [71, 80] ∧
      _gpkg_blob_to_wkb [71, 80, 0, 0, 0, 0, 0, 0, 5] = some [5] :=
  ⟨by decide, by decide,
    (claim_C5_gpkg_envelope [71, 80, 0, 0, 0, 0, 0, 0, 5]).2 0
      (by decide) (by decide) (by decide)⟩

/-- C7: feeding the fixed origin (longitude 127.5, latitude 38.0) to the
forward projection returns exactly the false origin
`(FALSE_EASTING, FALSE_NORTHING) = (1000000, 2000000)` — an exact identity
(for every interpretation of the trigonometric functions), hence in
particular within the claimed 1e-6 tolerance in each coordinate.  The origin
meridional arc `M0` cancels the `m` term exactly because it is the same
series evaluated at the same origin latitude. -/
theorem claim_C7_projection_origin (fns : RealFns) :
    Proj._lon_lat_to_unified fns 127.5 38.0 = (1000000, 2000000) := by
  simp only [Proj._lon_lat_to_unified, Proj.LON0, Proj.LAT0, Proj.M0,
    Proj.radians, Proj.FALSE_EASTING, Proj.FALSE_NORTHING, Prod.mk.injEq]
  constructor
  · ring_nf
  · ring_nf

theorem getElem?_append_cons {α : Type} (pre post : List α) (b : α) :
    (pre ++ b :: post)[pre.length]? = some b := by
  rw [List.getElem?_append_right (le_refl _)]
  simp

theorem readU32_encode (pre post : List Nat) (k : Nat) (hk : k < 2 ^ 32) :
    readU32 true (pre ++ (le32 k ++ post)) pre.length = some k := by
  unfold readU32
  rw [readBytes_append pre (le32 k) post 4 (le32_length k)]
  simp [bytesLE_le32 k hk]

theorem readW64_encode (pre post : List Nat) (k : Nat) (hk : k < 2 ^ 64) :
    readW64 true (pre ++ (le64 k ++ post)) pre.length = some k := by
  unfold readW64
  rw [readBytes_append pre (le64 k) post 8 (le64_length k)]
  simp [bytesLE_le64 k hk]

theorem flatMap_encodePoint_length (pts : List (Nat × Nat)) :
    (pts.flatMap encodePoint).length = 16 * pts.length := by
  induction pts with
  | nil => rfl
  | cons p rest ih =>
    simp only [List.flatMap_cons, List.length_append, ih, encodePoint,
      List.length_append, le64_length, List.length_cons]
    ring

theorem encodeLineString_length (pts : List (Nat × Nat)) :
    (encodeLineString pts).length = 9 + 16 * pts.length := by
  have h := flatMap_encodePoint_length pts
  simp only [encodeLineString, List.length_cons, List.length_append,
    le32_length, h]
  omega

theorem readPoints_encode {F : Type} (d : Nat → F) (pts : List (Nat × Nat))
    (pre post : List Nat) (h : ∀ p ∈ pts, p.1 < 2 ^ 64 ∧ p.2 < 2 ^ 64) :
    readPoints d true false false (pre ++ (pts.flatMap encodePoint ++ post))
        pts.length pre.length =
      some (pts.map (fun p => (d p.1, d p.2)), pre.length + 16 * pts.length) := by
  induction pts generalizing pre with
  | nil => simp [readPoints]
  | cons p rest ih =>
    have hp := h p (List.mem_cons_self p rest)
    have hdata : pre ++ ((p :: rest).flatMap encodePoint ++ post) =
        pre ++ (le64 p.1 ++ (le64 p.2 ++ (rest.flatMap encodePoint ++ post))) := by
      simp [encodePoint, List.append_assoc]
    have hx : readW64 true (pre ++ ((p :: rest).flatMap encodePoint ++ post))
        pre.length = some p.1 := by
      rw [hdata]
      exact readW64_encode pre _ p.1 hp.1
    have hy : readW64 true (pre ++ ((p :: rest).flatMap encodePoint ++ post))
        (pre.length + 8) = some p.2 := by
      have hdata2 : pre ++ ((p :: rest).flatMap encodePoint ++ post) =
          (pre ++ le64 p.1) ++ (le64 p.2 ++ (rest.flatMap encodePoint ++ post)) := by
        simp [encodePoint, List.append_assoc]
      have hlen : pre.length + 8 = (pre ++ le64 p.1).length := by
        simp [le64_length]
      rw [hdata2, hlen]
      exact readW64_encode (pre ++ le64 p.1) _ p.2 hp.2
    have hrec : readPoints d true false false
        (pre ++ ((p :: rest).flatMap encodePoint ++ post)) rest.length
        (pre.length + 16) =
        some (rest.map (fun q => (d q.1, d q.2)), pre.length + 16 + 16 * rest.length) := by
      have hdata3 : pre ++ ((p :: rest).flatMap encodePoint ++ post) =
          (pre ++ le64 p.1 ++ le64 p.2) ++ (rest.flatMap encodePoint ++ post) := by
        simp [encodePoint, List.append_assoc]
      have hlen : pre.length + 16 = (pre ++ le64 p.1 ++ le64 p.2).length := by
        simp [le64_length]
      rw [hdata3, hlen]
      exact ih (pre ++ le64 p.1 ++ le64 p.2)
        (fun q hq => h q (List.mem_cons_of_mem p hq))
    have harith : pre.length + 16 + 16 * rest.length =
        pre.length + 16 * (rest.length + 1) := by omega
    show readPoints d true false false _ (rest.length + 1) pre.length = _
    simp only [readPoints, hx, hy]
    simp only [Bool.false_eq_true, if_false, hrec, Option.map_some,
      List.map_cons, List.length_cons, harith]
    rfl

/-- Decoding a little-endian 2-D LineString encoding embedded at any position
in a larger buffer returns exactly its points, in order, and advances the
offset by exactly the encoding's byte length. -/
theorem parseWkb_encodeLineString {F : Type} (d : Nat → F)
    (pts : List (Nat × Nat)) (pre post : List Nat) (fuel : Nat)
    (hn : pts.length < 2 ^ 32)
    (h : ∀ p ∈ pts, p.1 < 2 ^ 64 ∧ p.2 < 2 ^ 64) :
    parseWkbAux d (pre ++ (encodeLineString pts ++ post)) (fuel + 1) pre.length =
      some ([pts.map fun p => (d p.1, d p.2)],
        pre.length + (encodeLineString pts).length) := by
  have hbyte : (pre ++ (encodeLineString pts ++ post))[pre.length]? = some 1 := by
    rw [encodeLineString]
    exact getElem?_append_cons pre _ 1
  have htype : readU32 true (pre ++ (encodeLineString pts ++ post))
      (pre.length + 1) = some 2 := by
    have e : pre ++ (encodeLineString pts ++ post) =
        (pre ++ [1]) ++ (le32 2 ++ (le32 pts.length ++ pts.flatMap encodePoint ++ post)) := by
      simp [encodeLineString, List.append_assoc]
    have hl : pre.length + 1 = (pre ++ [1]).length := by simp
    rw [e, hl]
    exact readU32_encode (pre ++ [1]) _ 2 (by norm_num)
  have hcount : readU32 true (pre ++ (encodeLineString pts ++ post))
      (pre.length + 5) = some pts.length := by
    have e : pre ++ (encodeLineString pts ++ post) =
        (pre ++ [1] ++ le32 2) ++ (le32 pts.length ++ (pts.flatMap encodePoint ++ post)) := by
      simp [encodeLineString, List.append_assoc]
    have hl : pre.length + 5 = (pre ++ [1] ++ le32 2).length := by
      simp [le32_length]
    rw [e, hl]
    exact readU32_encode (pre ++ [1] ++ le32 2) _ pts.length hn
  have hpts : readPoints d true false false
      (pre ++ (encodeLineString pts ++ post)) pts.length (pre.length + 9) =
      some (pts.map (fun p => (d p.1, d p.2)), pre.length + 9 + 16 * pts.length) := by
    have e : pre ++ (encodeLineString pts ++ post) =
        (pre ++ [1] ++ le32 2 ++ le32 pts.length) ++ (pts.flatMap encodePoint ++ post) := by
      simp [encodeLineString, List.append_assoc]
    have hl : pre.length + 9 = (pre ++ [1] ++ le32 2 ++ le32 pts.length).length := by
      simp [le32_length]
    rw [e, hl]
    exact readPoints_encode d pts _ post h
  have harith : pre.length + 9 + 16 * pts.length =
      pre.length + (encodeLineString pts).length := by
    rw [encodeLineString_length]
    omega
  simp only [parseWkbAux, hbyte]
  norm_num
  simp only [htype]
  norm_num
  simp only [hcount, hpts, Option.map_some, harith]
  rfl

/-- The MultiLineString child loop over consecutively encoded LineStrings
flattens the children's polylines in order and consumes exactly their total
byte length. -/
theorem parseChildren_encode {F : Type} (d : Nat → F)
    (cs : List (List (Nat × Nat))) (pre post : List Nat) (fuel : Nat)
    (h : ∀ c ∈ cs, c.length < 2 ^ 32 ∧ ∀ p ∈ c, p.1 < 2 ^ 64 ∧ p.2 < 2 ^ 64) :
    parseChildren
        (parseWkbAux d (pre ++ (cs.flatMap encodeLineString ++ post)) (fuel + 1))
        cs.length pre.length =
      some ((cs.map fun c => c.map fun p => (d p.1, d p.2)),
        pre.length + (cs.flatMap encodeLineString).length) := by
  induction cs generalizing pre with
  | nil => simp [parseChildren]
  | cons c rest ih =>
    have hc := h c (List.mem_cons_self c rest)
    have hdata : pre ++ ((c :: rest).flatMap encodeLineString ++ post) =
        pre ++ (encodeLineString c ++ (rest.flatMap encodeLineString ++ post)) := by
      simp [List.append_assoc]
    have hchild : parseWkbAux d
        (pre ++ ((c :: rest).flatMap encodeLineString ++ post)) (fuel + 1)
        pre.length =
        some ([c.map fun p => (d p.1, d p.2)],
          pre.length + (encodeLineString c).length) := by
      rw [hdata]
      exact parseWkb_encodeLineString d c pre _ fuel hc.1 hc.2
    have hrest : parseChildren
        (parseWkbAux d (pre ++ ((c :: rest).flatMap encodeLineString ++ post))
          (fuel + 1))
        rest.length (pre.length + (encodeLineString c).length) =
        some ((rest.map fun c => c.map fun p => (d p.1, d p.2)),
          pre.length + (encodeLineString c).length +
            (rest.flatMap encodeLineString).length) := by
      have hdata2 : pre ++ ((c :: rest).flatMap encodeLineString ++ post) =
          (pre ++ encodeLineString c) ++ (rest.flatMap encodeLineString ++ post) := by
        simp [List.append_assoc]
      have hlen : pre.length + (encodeLineString c).length =
          (pre ++ encodeLineString c).length := by
        simp
      rw [hdata2, hlen]
      exact ih (pre ++ encodeLineString c)
        (fun c' hc' => h c' (List.mem_cons_of_mem c hc'))
    have harith : pre.length + (encodeLineString c).length +
        (rest.flatMap encodeLineString).length =
        pre.length + ((c :: rest).flatMap encodeLineString).length := by
      simp only [List.flatMap_cons, List.length_append]
      omega
    show parseChildren _ (rest.length + 1) pre.length = _
    simp only [parseChildren, hchild, hrest, harith]
    simp only [Option.map_some, List.map_cons, List.singleton_append]
    rfl

/-- Decoding a little-endian MultiLineString of 2-D LineStrings embedded in a
larger buffer returns the concatenation of the children's polylines and
consumes exactly the structure's byte length. -/
theorem parseWkb_encodeMultiLineString {F : Type} (d : Nat → F)
    (cs : List (List (Nat × Nat))) (pre post : List Nat) (fuel : Nat)
    (hn : cs.length < 2 ^ 32)
    (h : ∀ c ∈ cs, c.length < 2 ^ 32 ∧ ∀ p ∈ c, p.1 < 2 ^ 64 ∧ p.2 < 2 ^ 64) :
    parseWkbAux d (pre ++ (encodeMultiLineString cs ++ post)) (fuel + 2)
        pre.length =
      some ((cs.map fun c => c.map fun p => (d p.1, d p.2)),
        pre.length + (encodeMultiLineString cs).length) := by
  have hbyte : (pre ++ (encodeMultiLineString cs ++ post))[pre.length]? = some 1 := by
    rw [encodeMultiLineString]
    exact getElem?_append_cons pre _ 1
  have htype : readU32 true (pre ++ (encodeMultiLineString cs ++ post))
      (pre.length + 1) = some 5 := by
    have e : pre ++ (encodeMultiLineString cs ++ post) =
        (pre ++ [1]) ++ (le32 5 ++ (le32 cs.length ++ cs.flatMap encodeLineString ++ post)) := by
      simp [encodeMultiLineString, List.append_assoc]
    have hl : pre.length + 1 = (pre ++ [1]).length := by simp
    rw [e, hl]
    exact readU32_encode (pre ++ [1]) _ 5 (by norm_num)
  have hcount : readU32 true (pre ++ (encodeMultiLineString cs ++ post))
      (pre.length + 5) = some cs.length := by
    have e : pre ++ (encodeMultiLineString cs ++ post) =
        (pre ++ [1] ++ le32 5) ++ (le32 cs.length ++ (cs.flatMap encodeLineString ++ post)) := by
      simp [encodeMultiLineString, List.append_assoc]
    have hl : pre.length + 5 = (pre ++ [1] ++ le32 5).length := by
      simp [le32_length]
    rw [e, hl]
    exact readU32_encode (pre ++ [1] ++ le32 5) _ cs.length hn
  have hkids : parseChildren
      (parseWkbAux d (pre ++ (encodeMultiLineString cs ++ post)) (fuel + 1))
      cs.length (pre.length + 9) =
      some ((cs.map fun c => c.map fun p => (d p.1, d p.2)),
        pre.length + 9 + (cs.flatMap encodeLineString).length) := by
    have e : pre ++ (encodeMultiLineString cs ++ post) =
        (pre ++ [1] ++ le32 5 ++ le32 cs.length) ++ (cs.flatMap encodeLineString ++ post) := by
      simp [encodeMultiLineString, List.append_assoc]
    have hl : pre.length + 9 = (pre ++ [1] ++ le32 5 ++ le32 cs.length).length := by
      simp [le32_length]
    rw [e, hl]
    exact parseChildren_encode d cs _ post fuel h
  have harith : pre.length + 9 + (cs.flatMap encodeLineString).length =
      pre.length + (encodeMultiLineString cs).length := by
    simp [encodeMultiLineString, le32_length]
    omega
  have step : ∀ g : Nat,
      parseChildren (parseWkbAux d (pre ++ (encodeMultiLineString cs ++ post)) g)
          cs.length (pre.length + 9) =
        some ((cs.map fun c => c.map fun p => (d p.1, d p.2)),
          pre.length + (encodeMultiLineString cs).length) →
      parseWkbAux d (pre ++ (encodeMultiLineString cs ++ post)) (g + 1)
          pre.length =
        some ((cs.map fun c => c.map fun p => (d p.1, d p.2)),
          pre.length + (encodeMultiLineString cs).length) := by
    intro g hg
    simp only [parseWkbAux, hbyte]
    norm_num
    simp only [htype]
    norm_num
    simp only [hcount]
    exact hg
  exact step (fuel + 1) (by rw [hkids, harith])

theorem decodeF64_zero : decodeF64 0 = some 0 := by
  norm_num [decodeF64]

theorem decodeF64_one : decodeF64 4607182418800017408 = some 1 := by
  norm_num [decodeF64]

theorem wkbScenarioBytes_encode :
    wkbScenarioBytes =
      encodeLineString [(0, 0), (4607182418800017408, 4607182418800017408)] := by
  decide

/-- C1: the WKB decoder, for every payload interpretation `d`:
(1) a valid little-endian LineString buffer with `N` points decodes to
exactly those `N` `(x, y)` points in original order, with returned offset
equal to the whole input length (all bytes consumed);
(2) a valid MultiLineString of LineString children decodes to the
concatenation of the children's polylines — one polyline per child, so the
count is the sum of the child LineString counts — with returned offset equal
to the structure's total byte size;
(3) the fixed bytes `01 02000000 02000000` followed by the doubles
0.0, 0.0, 1.0, 1.0 decode (under the IEEE-754 value reading `decodeF64`) to
the single polyline `[(0, 0), (1, 1)]`, consuming all 41 bytes. -/
theorem claim_C1_wkb_decoder :
    (∀ (F : Type) (d : Nat → F) (pts : List (Nat × Nat)),
      pts.length < 2 ^ 32 → (∀ p ∈ pts, p.1 < 2 ^ 64 ∧ p.2 < 2 ^ 64) →
      _parse_lines_from_wkb d (encodeLineString pts) 0 =
        some ([pts.map fun p => (d p.1, d p.2)], (encodeLineString pts).length)) ∧
    (∀ (F : Type) (d : Nat → F) (cs : List (List (Nat × Nat))),
      cs.length < 2 ^ 32 →
      (∀ c ∈ cs, c.length < 2 ^ 32 ∧ ∀ p ∈ c, p.1 < 2 ^ 64 ∧ p.2 < 2 ^ 64) →
      _parse_lines_from_wkb d (encodeMultiLineString cs) 0 =
        some ((cs.map fun c => c.map fun p => (d p.1, d p.2)),
          (encodeMultiLineString cs).length)) ∧
    _parse_lines_from_wkb decodeF64 wkbScenarioBytes 0 =
      some ([[((some 0 : Option ℚ), (some 0 : Option ℚ)),
        ((some 1 : Option ℚ), (some 1 : Option ℚ))]], 41) := by
  refine ⟨?_, ?_, ?_⟩
  · intro F d pts hn h
    have e : encodeLineString pts = [] ++ (encodeLineString pts ++ []) := by simp
    unfold _parse_lines_from_wkb
    rw [e]
    rcases Nat.exists_eq_add_of_le (Nat.le_refl 0) with _
    have := parseWkb_encodeLineString d pts [] []
      ([] ++ (encodeLineString pts ++ [])).length hn h
    simpa using this
  · intro F d cs hn h
    have hlen : 1 ≤ (encodeMultiLineString cs).length := by
      simp [encodeMultiLineString]
    unfold _parse_lines_from_wkb
    have e2 : (encodeMultiLineString cs).length + 1 =
        ((encodeMultiLineString cs).length - 1) + 2 := by omega
    rw [e2]
    have e : encodeMultiLineString cs = [] ++ (encodeMultiLineString cs ++ []) := by
      simp
    rw [e]
    have := parseWkb_encodeMultiLineString d cs [] []
      ((([] ++ (encodeMultiLineString cs ++ [])).length) - 1) hn h
    simpa using this
  · rw [wkbScenarioBytes_encode]
    have h41 : (encodeLineString
        [((0 : Nat), (0 : Nat)), (4607182418800017408, 4607182418800017408)]).length = 41 := by
      rw [encodeLineString_length]
      rfl
    have e : encodeLineString [((0 : Nat), (0 : Nat)), (4607182418800017408, 4607182418800017408)] =
        [] ++ (encodeLineString [((0 : Nat), (0 : Nat)), (4607182418800017408, 4607182418800017408)] ++ []) := by
      simp
    unfold _parse_lines_from_wkb
    rw [h41]
    rw [e]
    have := parseWkb_encodeLineString decodeF64
      [((0 : Nat), (0 : Nat)), (4607182418800017408, 4607182418800017408)] [] [] 41
      (by norm_num) (by norm_num)
    simpa [decodeF64_zero, decodeF64_one, encodeLineString_length] using this

/-- C1 witness: the LineString conjunct applied to the concrete two-point
buffer with raw payload words 0, 1, 2, 3 and the identity payload reading. -/
theorem claim_C1_wkb_decoder_witness :
    (([(0, 1), (2, 3)] : List (Nat × Nat)).length < 2 ^ 32 ∧
      (∀ p ∈ ([(0, 1), (2, 3)] : List (Nat × Nat)), p.1 < 2 ^ 64 ∧ p.2 < 2 ^ 64)) ∧
    _parse_lines_from_wkb (fun w => w) (encodeLineString [(0, 1), (2, 3)]) 0 =
      some ([[(0, 1), (2, 3)]], (encodeLineString [(0, 1), (2, 3)]).length) :=
  ⟨⟨by decide, by decide⟩, by
    simpa using claim_C1_wkb_decoder.1 Nat (fun w => w) [(0, 1), (2, 3)]
      (by decide) (by decide)⟩

theorem chain_spacingFilter (sq : ℚ) (l : List Pt) :
    ∀ last, List.Chain' (fun a b => sq ≤ d2 a b) (last :: spacingFilter sq last l) := by
  induction l with
  | nil =>
    intro last
    simp [spacingFilter]
  | cons p rest ih =>
    intro last
    by_cases h : sq ≤ d2 last p
    · rw [spacingFilter, if_pos h]
      exact List.chain'_cons.mpr ⟨h, ih p⟩
    · rw [spacingFilter, if_neg h]
      exact ih last

theorem chain_spacingKern (points : List Pt) (ms : ℚ) :
    List.Chain' (fun a b => ms * ms ≤ d2 a b) (spacingKern points ms) := by
  match points with
  | [] => simp [spacingKern]
  | p0 :: rest => exact chain_spacingFilter (ms * ms) rest.dropLast p0

/-- Arithmetic core of the down-sampling cap: with the exact ceiling stride,
the stride-sampled interior count plus the two endpoints fits in
`max_points`. -/
theorem stride_count_le (L : ℕ) (mp : ℤ) (h3 : 3 ≤ mp) (hgt : mp < (L : ℤ)) :
    1 ≤ Int.ceil (((L : ℚ) - 2) / ((mp : ℚ) - 2)) ∧
    (L - 2 + (Int.ceil (((L : ℚ) - 2) / ((mp : ℚ) - 2))).toNat - 1) /
        (Int.ceil (((L : ℚ) - 2) / ((mp : ℚ) - 2))).toNat ≤ (mp - 2).toNat := by
  have hL4 : 4 ≤ L := by omega
  have hbpos : (0 : ℚ) < (mp : ℚ) - 2 := by
    have : (2 : ℚ) < (mp : ℚ) := by exact_mod_cast (by omega : (2 : ℤ) < mp)
    linarith
  have hapos : (0 : ℚ) < (L : ℚ) - 2 := by
    have : (2 : ℚ) < (L : ℚ) := by exact_mod_cast (by omega : (2 : ℤ) < (L : ℤ))
    linarith
  set x : ℚ := ((L : ℚ) - 2) / ((mp : ℚ) - 2) with hx
  have hstep1 : 1 ≤ Int.ceil x := Int.ceil_pos.mpr (div_pos hapos hbpos)
  refine ⟨hstep1, ?_⟩
  set step0 : ℤ := Int.ceil x with hstep0
  have hkeyQ : (L : ℚ) - 2 ≤ (step0 : ℚ) * ((mp : ℚ) - 2) :=
    (div_le_iff₀ hbpos).mp (Int.le_ceil x)
  have hkeyZ : (L : ℤ) - 2 ≤ step0 * (mp - 2) := by exact_mod_cast hkeyQ
  set st : ℕ := step0.toNat with hst
  set bN : ℕ := (mp - 2).toNat with hbN
  have hst1 : 1 ≤ st := by omega
  have hkeyN : L - 2 ≤ st * bN := by
    have h1 : ((st * bN : ℕ) : ℤ) = step0 * (mp - 2) := by
      push_cast
      rw [Int.toNat_of_nonneg (by omega), Int.toNat_of_nonneg (by omega)]
    omega
  have hdiv : (L - 2 + st - 1) / st < bN + 1 := by
    rw [Nat.div_lt_iff_lt_mul (by omega : 0 < st)]
    calc L - 2 + st - 1 ≤ st * bN + st - 1 := by omega
    _ < (bN + 1) * st := by
        have : st * bN + st - 1 < st * bN + st := by omega
        calc st * bN + st - 1 < st * bN + st := this
        _ = (bN + 1) * st := by ring
  omega

/-- With `max_points ≥ 3` the fast simplifier always returns, and the output
respects the `max_points` ceiling. -/
theorem fast_cap (points : List Pt) (ms : ℚ) (mp : ℤ) (h3 : 3 ≤ mp) :
    ∃ out, _simplify_line_fast points ms mp = some out ∧ (out.length : ℤ) ≤ mp := by
  by_cases h2 : points.length ≤ 2
  · refine ⟨points, ?_, by omega⟩
    simp only [_simplify_line_fast, if_pos h2]
  · by_cases hle : ((preDownsample points ms).length : ℤ) ≤ mp
    · refine ⟨preDownsample points ms, ?_, hle⟩
      simp only [_simplify_line_fast, if_neg h2, if_pos hle]
    · have hmp2 : ¬ mp = 2 := by omega
      have hgt : mp < ((preDownsample points ms).length : ℤ) := by omega
      obtain ⟨hstep1, hcnt⟩ := stride_count_le (preDownsample points ms).length mp h3 hgt
      have hnotlt : ¬ Int.ceil ((((preDownsample points ms).length : ℚ) - 2) /
          ((mp : ℚ) - 2)) < 1 := by omega
      set L := (preDownsample points ms).length with hL
      set st := (Int.ceil (((L : ℚ) - 2) / ((mp : ℚ) - 2))).toNat with hst
      set trimmed0 := (preDownsample points ms).headD (0, 0) ::
        (pyRange 1 (L - 1) st).map
          (fun i => (preDownsample points ms).getD i (0, 0)) with htr0
      refine ⟨if trimmed0.getLastD (0, 0) ≠ (preDownsample points ms).getLastD (0, 0)
          then trimmed0 ++ [(preDownsample points ms).getLastD (0, 0)]
          else trimmed0, ?_, ?_⟩
      · simp only [_simplify_line_fast, if_neg h2, if_neg hle, if_neg hmp2,
          if_neg hnotlt]
      · have hlen0 : trimmed0.length = 1 + (L - 1 - 1 + st - 1) / st := by
          simp [htr0, pyRange, List.length_range']
          omega
        have hL4 : 4 ≤ L := by omega
        have e21 : L - 1 - 1 = L - 2 := by omega
        rw [e21] at hlen0
        have hbNmp : ((mp - 2).toNat : ℤ) = mp - 2 := by
          rw [Int.toNat_of_nonneg (by omega)]
        by_cases happ : trimmed0.getLastD (0, 0) ≠
            (preDownsample points ms).getLastD (0, 0)
        · rw [if_pos happ]
          simp only [List.length_append, hlen0, List.length_singleton]
          omega
        · rw [if_neg happ]
          rw [hlen0]
          omega

/-- C3 counterexample: with `maxPoints = 1` the claim's ceiling fails — the
two-point polyline is returned unchanged by the `len(points) <= 2` early
return, so the output has 2 points, exceeding `maxPoints`. -/
theorem claim_C3_counterexample :
    ∃ out, _simplify_line_fast [((0 : ℚ), (0 : ℚ)), (1, 0)] 0 1 = some out ∧
      1 < (out.length : ℤ) :=
  ⟨[((0 : ℚ), (0 : ℚ)), (1, 0)], by decide, by decide⟩

/-- C3 (amended: `maxPoints ≥ 3`): the pre-downsample kept sequence has every
two consecutive kept points at squared distance at least `minSpacing²` (this
covers all consecutive pairs of `spacingKern`, in particular the interior
ones), and the returned output never exceeds `maxPoints` points.  As stated —
for every `maxPoints` — the claim is false: see `claim_C3_counterexample`
(`maxPoints = 1`), and `maxPoints = 2` can raise (claim C10). -/
theorem claim_C3_fast_simplifier (points : List Pt) (min_spacing : ℚ)
    (max_points : ℤ) (h3 : 3 ≤ max_points) :
    List.Chain' (fun a b => min_spacing * min_spacing ≤ d2 a b)
      (spacingKern points min_spacing) ∧
    ∃ out, _simplify_line_fast points min_spacing max_points = some out ∧
      (out.length : ℤ) ≤ max_points :=
  ⟨chain_spacingKern points min_spacing,
    fast_cap points min_spacing max_points h3⟩

/-- C3 witness: the amended claim at a concrete 5-point polyline with
`minSpacing = 2` and `maxPoints = 3`. -/
theorem claim_C3_fast_simplifier_witness :
    (3 : ℤ) ≤ 3 ∧
    (List.Chain' (fun a b => (2 : ℚ) * 2 ≤ d2 a b)
      (spacingKern [((0 : ℚ), (0 : ℚ)), (3, 0), (6, 0), (9, 0), (12, 0)] 2) ∧
    ∃ out, _simplify_line_fast
        [((0 : ℚ), (0 : ℚ)), (3, 0), (6, 0), (9, 0), (12, 0)] 2 3 = some out ∧
      (out.length : ℤ) ≤ 3) :=
  ⟨by norm_num,
    claim_C3_fast_simplifier [((0 : ℚ), (0 : ℚ)), (3, 0), (6, 0), (9, 0), (12, 0)]
      2 3 (by norm_num)⟩

/-- C10: the `maxPoints` ceiling of `_simplify_line_fast` is only total for
`maxPoints ≥ 3`: on a 4-point input whose spacing-filtered result (4 kept
points) exceeds `maxPoints = 2`, the stride computation
`ceil((kept - 2) / (maxPoints - 2))` divides by zero, so the call raises
(`none`) instead of returning a capped polyline. -/
theorem claim_C10_fast_divzero :
    2 < ([((1 : ℚ), (0 : ℚ)), (11, 0), (21, 0), (31, 0)] : List Pt).length ∧
    2 < (preDownsample [((1 : ℚ), (0 : ℚ)), (11, 0), (21, 0), (31, 0)] 1).length ∧
    _simplify_line_fast [((1 : ℚ), (0 : ℚ)), (11, 0), (21, 0), (31, 0)] 1 2 =
      none := by
  have h : preDownsample [((1 : ℚ), (0 : ℚ)), (11, 0), (21, 0), (31, 0)] 1 =
      [((1 : ℚ), (0 : ℚ)), (11, 0), (21, 0), (31, 0)] := by
    norm_num [preDownsample, spacingKern, spacingFilter, d2]
  refine ⟨by norm_num, by rw [h]; norm_num, ?_⟩
  simp only [_simplify_line_fast, h]
  norm_num

theorem u32At_encode (pre post : List Nat) (k : Nat) (hk : k < 2 ^ 32) :
    u32At (pre ++ (le32 k ++ post)) pre.length = k := by
  unfold u32At
  rw [List.drop_left]
  have h4 : (le32 k ++ post).take 4 = le32 k := by
    rw [← le32_length k, List.take_left]
  rw [h4, bytesLE_le32 k hk]

theorem u64At_encode (pre post : List Nat) (k : Nat) (hk : k < 2 ^ 64) :
    u64At (pre ++ (le64 k ++ post)) pre.length = k := by
  unfold u64At
  rw [List.drop_left]
  have h8 : (le64 k ++ post).take 8 = le64 k := by
    rw [← le64_length k, List.take_left]
  rw [h8, bytesLE_le64 k hk]

theorem toInt32_small (k : Nat) (hk : k < 2 ^ 31) : toInt32 k = (k : ℤ) := by
  rw [toInt32, if_pos hk]

theorem readI32LE_encode (pre post : List Nat) (k : Nat) (hk : k < 2 ^ 32) :
    readI32LE (pre ++ (le32 k ++ post)) pre.length = some (toInt32 k) := by
  unfold readI32LE readU32
  rw [readBytes_append pre (le32 k) post 4 (le32_length k)]
  simp [bytesLE_le32 k hk]

theorem i32At_flat (vals : List Nat) (pre post : List Nat)
    (h : ∀ v ∈ vals, v < 2 ^ 31) :
    (List.range vals.length).map
        (fun i => i32At (pre ++ (vals.flatMap le32 ++ post)) (pre.length + 4 * i)) =
      vals.map (fun (a : Nat) => (a : ℤ)) := by
  induction vals generalizing pre with
  | nil => simp
  | cons v rest ih =>
    have hv := h v (List.mem_cons_self v rest)
    rw [List.length_cons, List.range_succ_eq_map]
    simp only [List.map_cons, List.map_map]
    have hhead : i32At (pre ++ ((v :: rest).flatMap le32 ++ post))
        (pre.length + 4 * 0) = (v : ℤ) := by
      have e : pre ++ ((v :: rest).flatMap le32 ++ post) =
          pre ++ (le32 v ++ (rest.flatMap le32 ++ post)) := by
        simp [List.append_assoc]
      rw [e, Nat.mul_zero, Nat.add_zero, i32At, u32At_encode pre _ v (by omega),
        toInt32_small v hv]
    have htail : ∀ i : Nat,
        i32At (pre ++ ((v :: rest).flatMap le32 ++ post))
          (pre.length + 4 * (Nat.succ i)) =
        i32At ((pre ++ le32 v) ++ (rest.flatMap le32 ++ post))
          ((pre ++ le32 v).length + 4 * i) := by
      intro i
      have e : pre ++ ((v :: rest).flatMap le32 ++ post) =
          (pre ++ le32 v) ++ (rest.flatMap le32 ++ post) := by
        simp [List.append_assoc]
      rw [e]
      congr 1
      simp [le32_length]
      omega
    rw [hhead]
    have : (List.range rest.length).map
        ((fun i => i32At (pre ++ ((v :: rest).flatMap le32 ++ post))
          (pre.length + 4 * i)) ∘ Nat.succ) =
        rest.map (fun (a : Nat) => (a : ℤ)) := by
      rw [← ih (pre ++ le32 v) (fun x hx => h x (List.mem_cons_of_mem v hx))]
      refine List.map_congr_left ?_
      intro i _
      exact htail i
    rw [this]

theorem u64At_flatPoints {F : Type} (d : Nat → F) (pts : List (Nat × Nat))
    (pre post : List Nat) (h : ∀ p ∈ pts, p.1 < 2 ^ 64 ∧ p.2 < 2 ^ 64) :
    (List.range pts.length).map (fun i =>
        (d (u64At (pre ++ (pts.flatMap encodePoint ++ post)) (pre.length + 16 * i)),
         d (u64At (pre ++ (pts.flatMap encodePoint ++ post)) (pre.length + 16 * i + 8)))) =
      pts.map (fun p => (d p.1, d p.2)) := by
  induction pts generalizing pre with
  | nil => simp
  | cons p rest ih =>
    have hp := h p (List.mem_cons_self p rest)
    rw [List.length_cons, List.range_succ_eq_map]
    simp only [List.map_cons, List.map_map]
    have ex : pre ++ ((p :: rest).flatMap encodePoint ++ post) =
        pre ++ (le64 p.1 ++ (le64 p.2 ++ (rest.flatMap encodePoint ++ post))) := by
      simp [encodePoint, List.append_assoc]
    have hx : u64At (pre ++ ((p :: rest).flatMap encodePoint ++ post))
        (pre.length + 16 * 0) = p.1 := by
      rw [ex, Nat.mul_zero, Nat.add_zero]
      exact u64At_encode pre _ p.1 hp.1
    have hy : u64At (pre ++ ((p :: rest).flatMap encodePoint ++ post))
        (pre.length + 16 * 0 + 8) = p.2 := by
      have ey : pre ++ ((p :: rest).flatMap encodePoint ++ post) =
          (pre ++ le64 p.1) ++ (le64 p.2 ++ (rest.flatMap encodePoint ++ post)) := by
        simp [encodePoint, List.append_assoc]
      have hl : pre.length + 16 * 0 + 8 = (pre ++ le64 p.1).length := by
        simp [le64_length]
      rw [ey, hl]
      exact u64At_encode (pre ++ le64 p.1) _ p.2 hp.2
    rw [hx, hy]
    have htail : (List.range rest.length).map
        ((fun i =>
          (d (u64At (pre ++ ((p :: rest).flatMap encodePoint ++ post))
            (pre.length + 16 * i)),
           d (u64At (pre ++ ((p :: rest).flatMap encodePoint ++ post))
            (pre.length + 16 * i + 8)))) ∘ Nat.succ) =
        rest.map (fun q => (d q.1, d q.2)) := by
      rw [← ih (pre ++ le64 p.1 ++ le64 p.2)
        (fun q hq => h q (List.mem_cons_of_mem p hq))]
      refine List.map_congr_left ?_
      intro i _
      have e : pre ++ ((p :: rest).flatMap encodePoint ++ post) =
          (pre ++ le64 p.1 ++ le64 p.2) ++ (rest.flatMap encodePoint ++ post) := by
        simp [encodePoint, List.append_assoc]
      have hl : ∀ c : Nat, pre.length + 16 * (Nat.succ i) + c =
          (pre ++ le64 p.1 ++ le64 p.2).length + 16 * i + c := by
        intro c
        simp [le64_length]
        omega
      have hl0 : pre.length + 16 * (Nat.succ i) =
          (pre ++ le64 p.1 ++ le64 p.2).length + 16 * i := by
        simp [le64_length]
        omega
      simp only [Function.comp]
      rw [e, hl0]
    rw [htail]

theorem pySlice_natural {α : Type} (l : List α) (a b : Nat)
    (ha : a ≤ l.length) (hb : b ≤ l.length) :
    pySlice l (a : ℤ) (b : ℤ) = (l.take b).drop a := by
  unfold pySlice pySliceIdx
  rw [if_neg (by omega), if_neg (by omega)]
  simp only [Int.toNat_natCast]
  rw [min_eq_left ha, min_eq_left hb]

theorem flatMap_le32_length (vals : List Nat) :
    (vals.flatMap le32).length = 4 * vals.length := by
  induction vals with
  | nil => rfl
  | cons v rest ih =>
    simp only [List.flatMap_cons, List.length_append, ih, le32_length,
      List.length_cons]
    ring

theorem encodeShpRecordContent_length (parts : List Nat)
    (pts : List (Nat × Nat)) :
    (encodeShpRecordContent parts pts).length =
      44 + 4 * parts.length + 16 * pts.length := by
  simp only [encodeShpRecordContent, List.length_append, le32_length,
    List.length_replicate, flatMap_le32_length, flatMap_encodePoint_length]

theorem partsSplit_natural {F : Type} (d : Nat → F) (parts : List Nat)
    (pts : List (Nat × Nat))
    (hvals : ∀ a ∈ parts, a ≤ pts.length) :
    partsSplit (parts.map (fun (a : Nat) => (a : ℤ))) (pts.length : ℤ)
        (pts.map fun p => (d p.1, d p.2)) =
      ((List.range parts.length).map (fun i =>
        (((pts.map fun p => (d p.1, d p.2)).take
            (if i + 1 < parts.length then parts.getD (i + 1) 0 else pts.length)).drop
          (parts.getD i 0)))).filter (fun line => 2 ≤ line.length) := by
  unfold partsSplit
  rw [List.length_map]
  congr 1
  refine List.map_congr_left ?_
  intro i hi
  rw [List.mem_range] at hi
  have hga : (parts.map (fun (a : Nat) => (a : ℤ))).getD i 0 = ((parts.getD i 0 : ℕ) : ℤ) := by
    rw [List.getD_eq_getElem?_getD, List.getD_eq_getElem?_getD, List.getElem?_map]
    rw [List.getElem?_eq_getElem hi]
    rfl
  have hmem : parts.getD i 0 ∈ parts := by
    rw [List.getD_eq_getElem?_getD, List.getElem?_eq_getElem hi]
    exact List.getElem_mem hi
  have hlenmap : (pts.map fun p => (d p.1, d p.2)).length = pts.length := by
    rw [List.length_map]
  by_cases hnext : i + 1 < parts.length
  · have hgb : (parts.map (fun (a : Nat) => (a : ℤ))).getD (i + 1) 0 =
        ((parts.getD (i + 1) 0 : ℕ) : ℤ) := by
      rw [List.getD_eq_getElem?_getD, List.getD_eq_getElem?_getD, List.getElem?_map]
      rw [List.getElem?_eq_getElem hnext]
      rfl
    have hmemb : parts.getD (i + 1) 0 ∈ parts := by
      rw [List.getD_eq_getElem?_getD, List.getElem?_eq_getElem hnext]
      exact List.getElem_mem hnext
    rw [hga, hgb, if_pos hnext, if_pos hnext]
    exact pySlice_natural _ _ _
      (by rw [hlenmap]; exact hvals _ hmem)
      (by rw [hlenmap]; exact hvals _ hmemb)
  · rw [hga, if_neg hnext, if_neg hnext]
    exact pySlice_natural _ _ _
      (by rw [hlenmap]; exact hvals _ hmem)
      (by rw [hlenmap])

/-- C4 (amended: the record stores `numParts` at content offset 36 and
`numPoints` at offset 40; the part-start-index array of `numParts` 32-bit
integers begins at content byte offset 44, i.e. after the shape type, the
record bounding box, and the two counts): for every well-formed polyline
record the reader returns the point array split into segments between
successive part-start indices — the last segment running to `numPoints` —
with segments of fewer than 2 points discarded.  The claim as stated places
the parts array itself at offset 36; see `claim_C4_shp_record_counterexample`. -/
theorem claim_C4_shp_record {F : Type} (d : Nat → F) (parts : List Nat)
    (pts : List (Nat × Nat))
    (hP : parts.length < 2 ^ 31) (hN : pts.length < 2 ^ 31)
    (hvals : ∀ a ∈ parts, a < 2 ^ 31 ∧ a ≤ pts.length)
    (hpts : ∀ p ∈ pts, p.1 < 2 ^ 64 ∧ p.2 < 2 ^ 64) :
    recordContentToLines d (encodeShpRecordContent parts pts) =
      some (((List.range parts.length).map (fun i =>
        (((pts.map fun p => (d p.1, d p.2)).take
            (if i + 1 < parts.length then parts.getD (i + 1) 0 else pts.length)).drop
          (parts.getD i 0)))).filter (fun line => 2 ≤ line.length)) := by
  have hb36 : (le32 3 ++ List.replicate 32 0 : List Nat).length = 36 := by
    simp [le32_length]
  have hb40 : (le32 3 ++ List.replicate 32 0 ++ le32 parts.length : List Nat).length = 40 := by
    simp [le32_length]
  have hb44 : (le32 3 ++ List.replicate 32 0 ++ le32 parts.length ++
      le32 pts.length : List Nat).length = 44 := by
    simp [le32_length]
  have hst : readI32LE (encodeShpRecordContent parts pts) 0 = some 3 := by
    have e : encodeShpRecordContent parts pts =
        [] ++ (le32 3 ++ (List.replicate 32 0 ++ le32 parts.length ++
          le32 pts.length ++ parts.flatMap le32 ++ pts.flatMap encodePoint)) := by
      simp [encodeShpRecordContent, List.append_assoc]
    rw [e]
    rw [show (0 : Nat) = ([] : List Nat).length from rfl]
    rw [readI32LE_encode [] _ 3 (by norm_num), toInt32_small 3 (by norm_num)]
    norm_num
  have h36 : readI32LE (encodeShpRecordContent parts pts) 36 =
      some (parts.length : ℤ) := by
    have e : encodeShpRecordContent parts pts =
        (le32 3 ++ List.replicate 32 0) ++ (le32 parts.length ++
          (le32 pts.length ++ parts.flatMap le32 ++ pts.flatMap encodePoint)) := by
      simp [encodeShpRecordContent, List.append_assoc]
    rw [e, ← hb36]
    rw [readI32LE_encode _ _ parts.length (by omega),
      toInt32_small parts.length hP]
  have h40 : readI32LE (encodeShpRecordContent parts pts) 40 =
      some (pts.length : ℤ) := by
    have e : encodeShpRecordContent parts pts =
        (le32 3 ++ List.replicate 32 0 ++ le32 parts.length) ++ (le32 pts.length ++
          (parts.flatMap le32 ++ pts.flatMap encodePoint)) := by
      simp [encodeShpRecordContent, List.append_assoc]
    rw [e, ← hb40]
    rw [readI32LE_encode _ _ pts.length (by omega),
      toInt32_small pts.length hN]
  have hparts : (List.range parts.length).map
      (fun i => i32At (encodeShpRecordContent parts pts) (44 + 4 * i)) =
      parts.map (fun (a : Nat) => (a : ℤ)) := by
    have e : encodeShpRecordContent parts pts =
        (le32 3 ++ List.replicate 32 0 ++ le32 parts.length ++ le32 pts.length) ++
          (parts.flatMap le32 ++ pts.flatMap encodePoint) := by
      simp [encodeShpRecordContent, List.append_assoc]
    rw [← i32At_flat parts _ (pts.flatMap encodePoint) (fun v hv => (hvals v hv).1)]
    refine List.map_congr_left ?_
    intro i _
    rw [e, hb44]
  have hpoints : (List.range pts.length).map (fun i =>
      (d (u64At (encodeShpRecordContent parts pts) (44 + 4 * parts.length + 16 * i)),
       d (u64At (encodeShpRecordContent parts pts) (44 + 4 * parts.length + 16 * i + 8)))) =
      pts.map (fun p => (d p.1, d p.2)) := by
    have e : encodeShpRecordContent parts pts =
        (le32 3 ++ List.replicate 32 0 ++ le32 parts.length ++ le32 pts.length ++
          parts.flatMap le32) ++ (pts.flatMap encodePoint ++ []) := by
      simp [encodeShpRecordContent, List.append_assoc]
    have hbp : (le32 3 ++ List.replicate 32 0 ++ le32 parts.length ++
        le32 pts.length ++ parts.flatMap le32 : List Nat).length =
        44 + 4 * parts.length := by
      simp only [List.length_append, flatMap_le32_length, le32_length,
        List.length_replicate]
    rw [← u64At_flatPoints d pts _ [] hpts]
    refine List.map_congr_left ?_
    intro i _
    rw [e, hbp]
  have hlen : (encodeShpRecordContent parts pts).length =
      44 + 4 * parts.length + 16 * pts.length :=
    encodeShpRecordContent_length parts pts
  simp only [recordContentToLines, hst, h36, h40]
  rw [if_neg (by norm_num), if_neg (by norm_num)]
  rw [if_neg (by omega)]
  rw [Int.toNat_natCast, Int.toNat_natCast]
  rw [if_neg (by rw [hlen]; omega)]
  rw [if_neg (by rw [hlen]; omega)]
  rw [hparts, hpoints]
  exact congrArg some (partsSplit_natural d parts pts (fun a ha => (hvals a ha).2))

/-- C4 counterexample: on a concrete record with parts `[0, 2]` and 4
points, the source reader (parts array at content offset 44) yields two
2-point segments, while the claim's layout (parts array at content offset
36, points immediately after it) yields a single segment — the claim's
stated offsets do not describe the code. -/
theorem claim_C4_shp_record_counterexample :
    (recordContentToLines (fun w => w)
        (encodeShpRecordContent [0, 2] [(100, 101), (102, 103), (104, 105), (106, 107)]) =
      some [[(100, 101), (102, 103)], [(104, 105), (106, 107)]]) ∧
    recordContentToLinesClaimed (fun w => w)
        (encodeShpRecordContent [0, 2] [(100, 101), (102, 103), (104, 105), (106, 107)]) ≠
      recordContentToLines (fun w => w)
        (encodeShpRecordContent [0, 2] [(100, 101), (102, 103), (104, 105), (106, 107)]) := by
  refine ⟨by decide, by decide⟩

/-- C4 witness: the amended claim at the record of the spec's example —
parts `[0, 3, 7]`, `numPoints = 10` — whose split yields three segments of
lengths 3, 4 and 3. -/
theorem claim_C4_shp_record_witness :
    (([0, 3, 7] : List Nat).length < 2 ^ 31 ∧
      ([(0, 1), (2, 3), (4, 5), (6, 7), (8, 9), (10, 11), (12, 13), (14, 15),
        (16, 17), (18, 19)] : List (Nat × Nat)).length < 2 ^ 31 ∧
      ∀ a ∈ ([0, 3, 7] : List Nat), a < 2 ^ 31 ∧ a ≤ 10) ∧
    recordContentToLines (fun w => w)
        (encodeShpRecordContent [0, 3, 7]
          [(0, 1), (2, 3), (4, 5), (6, 7), (8, 9), (10, 11), (12, 13), (14, 15),
            (16, 17), (18, 19)]) =
      some [[(0, 1), (2, 3), (4, 5)], [(6, 7), (8, 9), (10, 11), (12, 13)],
        [(14, 15), (16, 17), (18, 19)]] := by
  constructor
  · exact ⟨by decide, by decide, by decide⟩
  · have h := claim_C4_shp_record (fun w => w) [0, 3, 7]
      [(0, 1), (2, 3), (4, 5), (6, 7), (8, 9), (10, 11), (12, 13), (14, 15),
        (16, 17), (18, 19)] (by decide) (by decide) (by decide) (by decide)
    rw [h]
    decide

theorem takeWhile_name_pad (name : List Nat) (k : Nat)
    (h : ∀ b ∈ name, b ≠ 0) :
    (name ++ List.replicate k 0).takeWhile (fun b => b ≠ 0) = name := by
  induction name with
  | nil =>
    cases k with
    | zero => rfl
    | succ k' =>
      rw [List.replicate_succ, List.nil_append,
        List.takeWhile_cons_of_neg (by simp)]
  | cons b bs ih =>
    have hb := h b (List.mem_cons_self b bs)
    rw [List.cons_append, List.takeWhile_cons_of_pos (by simpa using hb)]
    rw [ih (fun x hx => h x (List.mem_cons_of_mem b hx))]

theorem encodeDbfField_length (f : DbfField) (h : f.name.length ≤ 11) :
    (encodeDbfField f).length = 32 := by
  simp [encodeDbfField]
  omega

theorem encodeDbfField_spec (f : DbfField) (h : DbfFieldWF f) :
    asciiIgnore (((encodeDbfField f).take 11).takeWhile (fun b => b ≠ 0)) =
      f.name ∧
    (encodeDbfField f).getD 11 0 = f.ftype ∧
    (encodeDbfField f).getD 16 0 = f.flen ∧
    (encodeDbfField f).getD 17 0 = f.fdec ∧
    (encodeDbfField f).getD 0 0 ≠ 13 := by
  obtain ⟨h11, hname, hft, hfl, hfd⟩ := h
  have htake : f.name.take 11 = f.name := List.take_of_length_le h11
  have hpadlen : (f.name.take 11 ++ List.replicate (11 - f.name.length) 0).length = 11 := by
    simp [htake]
    omega
  have htake11 := List.take_left
    (f.name.take 11 ++ List.replicate (11 - f.name.length) 0)
    (f.ftype :: 0 :: 0 :: 0 :: 0 :: f.flen :: f.fdec :: List.replicate 14 0)
  rw [hpadlen] at htake11
  refine ⟨?_, ?_, ?_, ?_, ?_⟩
  · rw [encodeDbfField, htake11, htake, takeWhile_name_pad f.name _ (fun b hb => by
      have := (hname b hb).1
      omega)]
    rw [asciiIgnore, List.filter_eq_self]
    intro b hb
    simpa using (hname b hb).2
  · rw [encodeDbfField, List.getD_append_right _ _ _ _ (le_of_eq hpadlen),
      hpadlen]
    rfl
  · rw [encodeDbfField, List.getD_append_right _ _ _ _ (by rw [hpadlen]; omega),
      hpadlen]
    rfl
  · rw [encodeDbfField, List.getD_append_right _ _ _ _ (by rw [hpadlen]; omega),
      hpadlen]
    rfl
  · rw [encodeDbfField, List.getD_append _ _ _ _ (by rw [hpadlen]; omega), htake]
    cases hn : f.name with
    | nil => decide
    | cons b bs =>
      have hb : 32 ≤ b := by
        have := hname b (by rw [hn]; exact List.mem_cons_self b bs)
        exact this.1
      rw [List.cons_append, List.getD_cons_zero]
      omega

/-- The field loop on a well-formed descriptor table returns exactly the
encoded fields, for any fuel exceeding the descriptor count. -/
theorem readFieldsLoop_encode (data : List Nat) (tail : List Nat) :
    ∀ (fields : List DbfField) (fuel off : Nat),
      (∀ f ∈ fields, DbfFieldWF f) →
      fields.length + 1 ≤ fuel →
      data.drop off = fields.flatMap encodeDbfField ++ (13 :: tail) →
      readFieldsLoop data fuel off = some fields := by
  intro fields
  induction fields with
  | nil =>
    intro fuel off _ hfuel hdrop
    match fuel, hfuel with
    | fuel' + 1, _ =>
      have hdesc : (data.drop off).take 32 = 13 :: tail.take 31 := by
        rw [List.flatMap_nil, List.nil_append] at hdrop
        rw [hdrop]
        rfl
      simp only [readFieldsLoop, hdesc]
      rw [if_neg (by simp), if_pos (by rw [List.getD_cons_zero])]
  | cons f rest ih =>
    intro fuel off hWF hfuel hdrop
    match fuel, hfuel with
    | fuel' + 1, hfuel' =>
      have hf := hWF f (List.mem_cons_self f rest)
      have hlen32 : (encodeDbfField f).length = 32 := encodeDbfField_length f hf.1
      have hdesc : (data.drop off).take 32 = encodeDbfField f := by
        rw [hdrop, List.flatMap_cons, List.append_assoc, ← hlen32,
          List.take_left]
      obtain ⟨hnm, hty, hfl, hfd, h13⟩ := encodeDbfField_spec f hf
      have hrec : readFieldsLoop data fuel' (off + 32) = some rest := by
        refine ih fuel' (off + 32) (fun x hx => hWF x (List.mem_cons_of_mem f hx))
          (by simp only [List.length_cons] at hfuel'; omega) ?_
        have hdd : data.drop (off + 32) = (data.drop off).drop 32 := by
          rw [List.drop_drop, Nat.add_comm]
        rw [hdd, hdrop, List.flatMap_cons, List.append_assoc, ← hlen32,
          List.drop_left]
      simp only [readFieldsLoop, hdesc]
      rw [if_neg (by rw [hlen32]; omega), if_neg h13,
        if_neg (by rw [hlen32]; omega), hrec]
      have hfld : (⟨asciiIgnore (((encodeDbfField f).take 11).takeWhile
            (fun b => b ≠ 0)),
          (encodeDbfField f).getD 11 0, (encodeDbfField f).getD 16 0,
          (encodeDbfField f).getD 17 0⟩ : DbfField) = f := by
        cases f
        simp only [DbfField.mk.injEq]
        exact ⟨hnm, hty, hfl, hfd⟩
      rw [hfld]
      rfl

/-- A non-empty record always decodes to a value: `0` for the deletion
marker, the parsed/rounded `CONT` value (with `ValueError` recovered as 0)
otherwise. -/
theorem dbfRecordValue_isSome (pf : List Nat → Option ℚ)
    (fields : List DbfField) (cont_idx : Nat) (b : Nat) (bs : List Nat) :
    dbfRecordValue pf fields cont_idx (b :: bs) =
      some ((dbfRecordValue pf fields cont_idx (b :: bs)).getD 0) := by
  rw [dbfRecordValue]
  by_cases hb : b = 42
  · rw [if_pos hb]
    rfl
  · rw [if_neg hb]
    rcases pf (stripBytes (asciiIgnore (contSlice fields cont_idx (b :: bs)))) with _ | q
    · rfl
    · rfl

/-- The record loop over contiguously stored fixed-width records returns one
value per record, each depending only on that record's bytes. -/
theorem readRecordsLoop_encode (pf : List Nat → Option ℚ) (data : List Nat)
    (fields : List DbfField) (cont_idx : Nat) (record_len : Nat)
    (hrl : 1 ≤ record_len) :
    ∀ (records : List (List Nat)) (pos : Nat) (tail : List Nat),
      (∀ r ∈ records, r.length = record_len) →
      data.drop pos = records.flatten ++ tail →
      readRecordsLoop pf data fields cont_idx record_len records.length pos =
        some (records.map
          (fun r => (dbfRecordValue pf fields cont_idx r).getD 0)) := by
  intro records
  induction records with
  | nil =>
    intro pos tail _ _
    rfl
  | cons r rest ih =>
    intro pos tail hlens hdrop
    have hr : r.length = record_len := hlens r (List.mem_cons_self r rest)
    have hrcd : (data.drop pos).take record_len = r := by
      rw [hdrop, List.flatten_cons, List.append_assoc, ← hr, List.take_left]
    have hrec : readRecordsLoop pf data fields cont_idx record_len rest.length
        (pos + record_len) =
        some (rest.map (fun x => (dbfRecordValue pf fields cont_idx x).getD 0)) := by
      have hdd : data.drop (pos + record_len) = (data.drop pos).drop record_len := by
        rw [List.drop_drop, Nat.add_comm]
      refine ih (pos + record_len) tail
        (fun x hx => hlens x (List.mem_cons_of_mem r hx)) ?_
      rw [hdd, hdrop, List.flatten_cons, List.append_assoc, ← hr,
        List.drop_left]
    cases r with
    | nil =>
      rw [List.length_nil] at hr
      omega
    | cons b bs =>
      show readRecordsLoop pf data fields cont_idx record_len
        (rest.length + 1) pos = _
      rw [readRecordsLoop, hrcd]
      rw [if_neg (by omega)]
      rw [dbfRecordValue_isSome pf fields cont_idx b bs]
      rw [hrec]
      rfl

theorem flatMap_encodeDbfField_length (fields : List DbfField)
    (hWF : ∀ f ∈ fields, DbfFieldWF f) :
    (fields.flatMap encodeDbfField).length = 32 * fields.length := by
  induction fields with
  | nil => rfl
  | cons f rest ih =>
    rw [List.flatMap_cons, List.length_append,
      encodeDbfField_length f (hWF f (List.mem_cons_self f rest)).1,
      ih (fun x hx => hWF x (List.mem_cons_of_mem f hx)), List.length_cons]
    ring

/-- C6: on a well-formed DBF file whose field table contains `CONT`, the
reader returns exactly one value per stored record, in file order — record
`k` of the output is a function of record `k`'s bytes alone, so a deleted
record neither shifts nor changes any other record's value — and a record
whose first byte is the deletion marker `0x2A` contributes the value `0`
without any field parsing.  Holds for every interpretation `pf` of Python
`float` parsing. -/
theorem claim_C6_dbf_deleted (pf : List Nat → Option ℚ)
    (fields : List DbfField) (record_len : Nat) (records : List (List Nat))
    (cont_idx : Nat)
    (hWF : ∀ f ∈ fields, DbfFieldWF f)
    (hnr : records.length < 2 ^ 32)
    (hhl : 33 + 32 * fields.length < 2 ^ 16)
    (hrl16 : record_len < 2 ^ 16) (hrl : 1 ≤ record_len)
    (hrecs : ∀ r ∈ records, r.length = record_len)
    (hfind : fields.findIdx?
      (fun fd => upperAscii fd.name == [67, 79, 78, 84]) = some cont_idx) :
    read_dbf_contours pf (encodeDbf fields record_len records) =
      some (records.map
        (fun r => (dbfRecordValue pf fields cont_idx r).getD 0)) ∧
    ∀ bs : List Nat, dbfRecordValue pf fields cont_idx (42 :: bs) = some 0 := by
  constructor
  ·
    have hdata : encodeDbf fields record_len records =
        ([3, 0, 0, 0] ++ le32 records.length ++
          le16 (33 + 32 * fields.length) ++ le16 record_len ++
          List.replicate 20 0) ++
        (fields.flatMap encodeDbfField ++ (13 :: records.flatten)) := by
      simp [encodeDbf, List.append_assoc]
    have hh32 : ([3, 0, 0, 0] ++ le32 records.length ++
        le16 (33 + 32 * fields.length) ++ le16 record_len ++
        List.replicate 20 0 : List Nat).length = 32 := by
      simp [le32_length, le16_length]
    have hflen : (fields.flatMap encodeDbfField).length = 32 * fields.length :=
      flatMap_encodeDbfField_length fields hWF
    have hdlen : (encodeDbf fields record_len records).length =
        33 + 32 * fields.length + records.flatten.length := by
      rw [hdata, List.length_append, hh32, List.length_append, hflen,
        List.length_cons]
      omega
    have htake32 : (encodeDbf fields record_len records).take 32 =
        [3, 0, 0, 0] ++ le32 records.length ++
          le16 (33 + 32 * fields.length) ++ le16 record_len ++
          List.replicate 20 0 := by
      have h := List.take_left
        ([3, 0, 0, 0] ++ le32 records.length ++
          le16 (33 + 32 * fields.length) ++ le16 record_len ++
          List.replicate 20 0)
        (fields.flatMap encodeDbfField ++ (13 :: records.flatten))
      rw [hh32] at h
      rw [hdata]
      exact h
    have hv4 : bytesLE ((([3, 0, 0, 0] ++ le32 records.length ++
        le16 (33 + 32 * fields.length) ++ le16 record_len ++
        List.replicate 20 0 : List Nat).drop 4).take 4) = records.length := by
      have e : (([3, 0, 0, 0] ++ le32 records.length ++
          le16 (33 + 32 * fields.length) ++ le16 record_len ++
          List.replicate 20 0 : List Nat).drop 4).take 4 =
          le32 records.length := rfl
      rw [e]
      exact bytesLE_le32 _ hnr
    have hv8 : bytesLE ((([3, 0, 0, 0] ++ le32 records.length ++
        le16 (33 + 32 * fields.length) ++ le16 record_len ++
        List.replicate 20 0 : List Nat).drop 8).take 2) =
        33 + 32 * fields.length := by
      have e : (([3, 0, 0, 0] ++ le32 records.length ++
          le16 (33 + 32 * fields.length) ++ le16 record_len ++
          List.replicate 20 0 : List Nat).drop 8).take 2 =
          le16 (33 + 32 * fields.length) := rfl
      rw [e]
      exact bytesLE_le16 _ hhl
    have hv10 : bytesLE ((([3, 0, 0, 0] ++ le32 records.length ++
        le16 (33 + 32 * fields.length) ++ le16 record_len ++
        List.replicate 20 0 : List Nat).drop 10).take 2) = record_len := by
      have e : (([3, 0, 0, 0] ++ le32 records.length ++
          le16 (33 + 32 * fields.length) ++ le16 record_len ++
          List.replicate 20 0 : List Nat).drop 10).take 2 =
          le16 record_len := rfl
      rw [e]
      exact bytesLE_le16 _ hrl16
    have hfl : readFieldsLoop (encodeDbf fields record_len records)
        ((encodeDbf fields record_len records).length + 1) 32 = some fields := by
      refine readFieldsLoop_encode _ records.flatten fields _ 32 hWF
        (by rw [hdlen]; omega) ?_
      have h := List.drop_left
        ([3, 0, 0, 0] ++ le32 records.length ++
          le16 (33 + 32 * fields.length) ++ le16 record_len ++
          List.replicate 20 0)
        (fields.flatMap encodeDbfField ++ (13 :: records.flatten))
      rw [hh32] at h
      rw [hdata, h]
    have hrloop : readRecordsLoop pf (encodeDbf fields record_len records)
        fields cont_idx record_len records.length (33 + 32 * fields.length) =
        some (records.map
          (fun r => (dbfRecordValue pf fields cont_idx r).getD 0)) := by
      refine readRecordsLoop_encode pf _ fields cont_idx record_len hrl
        records (33 + 32 * fields.length) [] hrecs ?_
      have hpre : ([3, 0, 0, 0] ++ le32 records.length ++
          le16 (33 + 32 * fields.length) ++ le16 record_len ++
          List.replicate 20 0 ++ (fields.flatMap encodeDbfField ++ [13]) :
          List Nat).length = 33 + 32 * fields.length := by
        rw [List.length_append, hh32, List.length_append, hflen]
        simp
        omega
      have hdata2 : encodeDbf fields record_len records =
          ([3, 0, 0, 0] ++ le32 records.length ++
            le16 (33 + 32 * fields.length) ++ le16 record_len ++
            List.replicate 20 0 ++ (fields.flatMap encodeDbfField ++ [13])) ++
          records.flatten := by
        rw [hdata]
        simp [List.append_assoc]
      have h := List.drop_left
        ([3, 0, 0, 0] ++ le32 records.length ++
          le16 (33 + 32 * fields.length) ++ le16 record_len ++
          List.replicate 20 0 ++ (fields.flatMap encodeDbfField ++ [13]))
        records.flatten
      rw [hpre] at h
      rw [hdata2, h, List.append_nil]
    rw [read_dbf_contours, if_neg (by rw [hdlen]; omega)]
    simp only [htake32, hv4, hv8, hv10, hfl, hfind, hrloop]
  · intro bs
    rfl

/-- C6 witness: a concrete file with a single `CONT` field and three
records, the middle one deleted. -/
theorem claim_C6_dbf_deleted_witness :
    ((1 : Nat) ≤ 5 ∧
      ([⟨[67, 79, 78, 84], 78, 4, 0⟩] : List DbfField).findIdx?
        (fun fd => upperAscii fd.name == [67, 79, 78, 84]) = some 0) ∧
    (read_dbf_contours (fun _ => some 7)
        (encodeDbf [⟨[67, 79, 78, 84], 78, 4, 0⟩] 5
          [[32, 49, 50, 48, 32], [42, 0, 0, 0, 0], [32, 50, 48, 48, 32]]) =
      some (([[32, 49, 50, 48, 32], [42, 0, 0, 0, 0],
          [32, 50, 48, 48, 32]] : List (List Nat)).map
        (fun r => (dbfRecordValue (fun _ => some 7)
          [⟨[67, 79, 78, 84], 78, 4, 0⟩] 0 r).getD 0)) ∧
      ∀ bs : List Nat, dbfRecordValue (fun _ => some 7)
        [⟨[67, 79, 78, 84], 78, 4, 0⟩] 0 (42 :: bs) = some 0) :=
  ⟨⟨by norm_num, by decide⟩,
    claim_C6_dbf_deleted (fun _ => some 7) [⟨[67, 79, 78, 84], 78, 4, 0⟩] 5
      [[32, 49, 50, 48, 32], [42, 0, 0, 0, 0], [32, 50, 48, 48, 32]] 0
      (by
        intro f hf
        rw [List.mem_singleton] at hf
        subst hf
        exact ⟨by decide, by decide, by decide, by decide, by decide⟩)
      (by decide) (by decide) (by decide) (by norm_num)
      (by decide) (by decide)⟩

theorem distSq_nonneg (p a b : Pt) :
    0 ≤ _distance_sq_point_to_segment p a b := by
  unfold _distance_sq_point_to_segment
  by_cases h : b.1 - a.1 = 0 ∧ b.2 - a.2 = 0
  · rw [if_pos h]
    positivity
  · rw [if_neg h]
    positivity

theorem findMaxAux_spec (pts : List Pt) (a b : Pt) (ks : List Nat) :
    ∀ acc : ℚ × ℤ,
    acc.1 ≤ (findMaxAux pts a b ks acc).1 ∧
    (∀ k ∈ ks, _distance_sq_point_to_segment (pts.getD k (0, 0)) a b ≤
      (findMaxAux pts a b ks acc).1) ∧
    (findMaxAux pts a b ks acc = acc ∨
      ∃ m ∈ ks, findMaxAux pts a b ks acc =
        (_distance_sq_point_to_segment (pts.getD m (0, 0)) a b, (m : ℤ)) ∧
        acc.1 < _distance_sq_point_to_segment (pts.getD m (0, 0)) a b) ∧
    ((∀ k ∈ ks, acc.2 < (k : ℤ)) → List.Pairwise (· < ·) ks →
      ∀ k ∈ ks, (k : ℤ) < (findMaxAux pts a b ks acc).2 →
        _distance_sq_point_to_segment (pts.getD k (0, 0)) a b <
          (findMaxAux pts a b ks acc).1) := by
  induction ks with
  | nil =>
    intro acc
    exact ⟨le_refl _, by simp, Or.inl rfl, by simp⟩
  | cons k ks ih =>
    intro acc
    rw [findMaxAux]
    by_cases hupd : acc.1 <
        _distance_sq_point_to_segment (pts.getD k (0, 0)) a b
    · rw [if_pos hupd]
      obtain ⟨ih1, ih2, ih3, ih4⟩ :=
        ih (_distance_sq_point_to_segment (pts.getD k (0, 0)) a b, (k : ℤ))
      refine ⟨le_of_lt (lt_of_lt_of_le hupd ih1), ?_, ?_, ?_⟩
      · intro x hx
        rcases List.mem_cons.mp hx with hxk | hxks
        · rw [hxk]
          exact ih1
        · exact ih2 x hxks
      · rcases ih3 with h3 | ⟨m, hm, hR, hlt⟩
        · exact Or.inr ⟨k, List.mem_cons_self k ks, h3, hupd⟩
        · exact Or.inr ⟨m, List.mem_cons_of_mem k hm, hR,
            lt_trans hupd (by simpa using hlt)⟩
      · intro hgt hpair x hx hxlt
        have hpair' := List.pairwise_cons.mp hpair
        have hgt' : ∀ y ∈ ks, ((k : ℤ)) < (y : ℤ) := by
          intro y hy
          exact_mod_cast hpair'.1 y hy
        rcases List.mem_cons.mp hx with hxk | hxks
        · subst hxk
          rcases ih3 with h3 | ⟨m, hm, hR, hlt⟩
          · rw [h3] at hxlt
            exact absurd hxlt (lt_irrefl _)
          · rw [hR]
            simpa using hlt
        · exact ih4 hgt' hpair'.2 x hxks hxlt
    · rw [if_neg hupd]
      obtain ⟨ih1, ih2, ih3, ih4⟩ := ih acc
      refine ⟨ih1, ?_, ?_, ?_⟩
      · intro x hx
        rcases List.mem_cons.mp hx with hxk | hxks
        · rw [hxk]
          exact le_trans (not_lt.mp hupd) ih1
        · exact ih2 x hxks
      · rcases ih3 with h3 | ⟨m, hm, hR, hlt⟩
        · exact Or.inl h3
        · exact Or.inr ⟨m, List.mem_cons_of_mem k hm, hR, hlt⟩
      · intro hgt hpair x hx hxlt
        have hpair' := List.pairwise_cons.mp hpair
        have hgt' : ∀ y ∈ ks, acc.2 < ((y : Nat) : ℤ) := by
          intro y hy
          exact hgt y (List.mem_cons_of_mem k hy)
        rcases List.mem_cons.mp hx with hxk | hxks
        · subst hxk
          rcases ih3 with h3 | ⟨m, hm, hR, hlt⟩
          · rw [h3] at hxlt
            exact absurd hxlt (not_lt.mpr (le_of_lt
              (hgt x (List.mem_cons_self x ks))))
          · rw [hR]
            exact lt_of_le_of_lt (not_lt.mp hupd) hlt
        · exact ih4 hgt' hpair'.2 x hxks hxlt

theorem findMax_of_le (pts : List Pt) (i j : Nat) (h : j ≤ i + 1) :
    findMax pts i j = (-1, -1) := by
  unfold findMax
  rw [show j - i - 1 = 0 from by omega]
  rfl

/-- On a non-empty interior the scan returns the squared distance and index
of the earliest interior point attaining the maximum squared distance to
the popped range's segment. -/
theorem findMax_spec (pts : List Pt) (i j : Nat) (hij : i + 1 < j) :
    ∃ m : Nat, findMax pts i j =
      (_distance_sq_point_to_segment (pts.getD m (0, 0)) (pts.getD i (0, 0))
        (pts.getD j (0, 0)), (m : ℤ)) ∧
      i < m ∧ m < j ∧
      (∀ k, i < k → k < j →
        _distance_sq_point_to_segment (pts.getD k (0, 0)) (pts.getD i (0, 0))
          (pts.getD j (0, 0)) ≤
        _distance_sq_point_to_segment (pts.getD m (0, 0)) (pts.getD i (0, 0))
          (pts.getD j (0, 0))) ∧
      (∀ k, i < k → k < m →
        _distance_sq_point_to_segment (pts.getD k (0, 0)) (pts.getD i (0, 0))
          (pts.getD j (0, 0)) <
        _distance_sq_point_to_segment (pts.getD m (0, 0)) (pts.getD i (0, 0))
          (pts.getD j (0, 0))) := by
  obtain ⟨h1, h2, h3, h4⟩ := findMaxAux_spec pts (pts.getD i (0, 0))
    (pts.getD j (0, 0)) (List.range' (i + 1) (j - i - 1)) (-1, -1)
  have hmem : ∀ k : Nat, i < k → k < j → k ∈ List.range' (i + 1) (j - i - 1) := by
    intro k hik hkj
    rw [List.mem_range']
    exact ⟨k - i - 1, by omega, by omega⟩
  have hpair : List.Pairwise (· < ·) (List.range' (i + 1) (j - i - 1)) := by
    have := List.pairwise_lt_range' (i + 1) (j - i - 1) 1 (by omega)
    simpa using this
  have hne : findMaxAux pts (pts.getD i (0, 0)) (pts.getD j (0, 0))
      (List.range' (i + 1) (j - i - 1)) (-1, -1) ≠ ((-1 : ℚ), (-1 : ℤ)) := by
    intro he
    have hk := h2 (i + 1) (hmem (i + 1) (by omega) (by omega))
    rw [he] at hk
    have hge := distSq_nonneg (pts.getD (i + 1) (0, 0)) (pts.getD i (0, 0))
      (pts.getD j (0, 0))
    have h0 : (0 : ℚ) ≤ -1 := le_trans hge hk
    norm_num at h0
  rcases h3 with h3 | ⟨m, hm, hR, _⟩
  · exact absurd h3 hne
  · rw [List.mem_range'] at hm
    obtain ⟨c, hc, hmv⟩ := hm
    refine ⟨m, hR, by omega, by omega, ?_, ?_⟩
    · intro k hik hkj
      have hmax := h2 k (hmem k hik hkj)
      rw [hR] at hmax
      exact hmax
    · intro k hik hkm
      have hkj : k < j := by omega
      have hstrict := h4
        (fun y _ => lt_of_lt_of_le (by norm_num) (Int.natCast_nonneg y))
        hpair k (hmem k hik hkj)
        (by
          rw [hR]
          show (k : ℤ) < (m : ℤ)
          exact_mod_cast hkm)
      rw [hR] at hstrict
      exact hstrict

theorem dpKeepSet_of_guard (pts : List Pt) (t : ℚ) (i j : Nat)
    (h : t < (findMax pts i j).1 ∧ (findMax pts i j).2 ≠ -1) :
    dpKeepSet pts t i j = {(findMax pts i j).2.toNat} ∪
      dpKeepSet pts t i (findMax pts i j).2.toNat ∪
      dpKeepSet pts t (findMax pts i j).2.toNat j := by
  rw [dpKeepSet]
  simp only [dif_pos h]

theorem dpKeepSet_of_not (pts : List Pt) (t : ℚ) (i j : Nat)
    (h : ¬ (t < (findMax pts i j).1 ∧ (findMax pts i j).2 ≠ -1)) :
    dpKeepSet pts t i j = ∅ := by
  rw [dpKeepSet]
  simp only [dif_neg h]

theorem dpKeepSet_subset (pts : List Pt) (t : ℚ) :
    ∀ (d i j : Nat), j - i ≤ d → ∀ x ∈ dpKeepSet pts t i j, i < x ∧ x < j := by
  intro d
  induction d with
  | zero =>
    intro i j hd x hx
    have hg : ¬ (t < (findMax pts i j).1 ∧ (findMax pts i j).2 ≠ -1) := by
      rw [findMax_of_le pts i j (by omega)]
      simp
    rw [dpKeepSet_of_not pts t i j hg] at hx
    exact absurd hx (Finset.not_mem_empty x)
  | succ d ih =>
    intro i j hd x hx
    by_cases hg : t < (findMax pts i j).1 ∧ (findMax pts i j).2 ≠ -1
    · obtain ⟨hb1, hb2⟩ := findMax_idx_bounds pts i j hg.2
      rw [dpKeepSet_of_guard pts t i j hg] at hx
      rcases Finset.mem_union.mp hx with hx' | hx'
      · rcases Finset.mem_union.mp hx' with hx'' | hx''
        · rw [Finset.mem_singleton] at hx''
          omega
        · have := ih i (findMax pts i j).2.toNat (by omega) x hx''
          omega
      · have := ih (findMax pts i j).2.toNat j (by omega) x hx'
        omega
    · rw [dpKeepSet_of_not pts t i j hg] at hx
      exact absurd hx (Finset.not_mem_empty x)

theorem simplifyLoop_length (pts : List Pt) (t : ℚ) :
    ∀ stack keep, (simplifyLoop pts t stack keep).length = keep.length := by
  intro stack keep
  induction stack, keep using simplifyLoop.induct pts t with
  | case1 keep => rw [simplifyLoop]
  | case2 i j stack keep fm hg ih =>
    rw [simplifyLoop, dif_pos hg]
    rw [ih]
    exact List.length_set ..
  | case3 i j stack keep fm hg ih =>
    rw [simplifyLoop, dif_neg hg]
    exact ih

set_option maxHeartbeats 1000000 in
/-- The worklist run keeps exactly the initially marked indices plus, for
each stacked range, the indices of that range's recursive kept set. -/
theorem simplifyLoop_spec (pts : List Pt) (t : ℚ) :
    ∀ stack keep, (∀ e ∈ stack, e.2 < keep.length) →
    ∀ x, ((simplifyLoop pts t stack keep).getD x false = true ↔
      (keep.getD x false = true ∨ ∃ e ∈ stack, x ∈ dpKeepSet pts t e.1 e.2)) := by
  intro stack keep
  induction stack, keep using simplifyLoop.induct pts t with
  | case1 keep =>
    intro _ x
    rw [simplifyLoop]
    simp
  | case2 i j stack keep fm hg ih =>
    intro hb x
    obtain ⟨hm1, hm2⟩ := findMax_idx_bounds pts i j hg.2
    have hjlen : j < keep.length := hb (i, j) (List.mem_cons_self _ _)
    have hmlen : fm.2.toNat < keep.length := lt_trans hm2 hjlen
    rw [simplifyLoop, dif_pos hg]
    have hb' : ∀ e ∈ (fm.2.toNat, j) :: (i, fm.2.toNat) :: stack,
        e.2 < (keep.set fm.2.toNat true).length := by
      intro e he
      rw [List.length_set]
      rcases List.mem_cons.mp he with he1 | he2
      · rw [he1]
        exact hjlen
      · rcases List.mem_cons.mp he2 with he3 | he4
        · rw [he3]
          exact hmlen
        · exact hb e (List.mem_cons_of_mem _ he4)
    rw [ih hb' x]
    have hset : ((keep.set fm.2.toNat true).getD x false = true) ↔
        (x = fm.2.toNat ∨ keep.getD x false = true) := by
      by_cases hxm : x = fm.2.toNat
      · subst hxm
        rw [List.getD_eq_getElem?_getD, List.getElem?_set_eq hmlen]
        simp
      · rw [List.getD_eq_getElem?_getD,
          List.getElem?_set_ne (Ne.symm hxm), ← List.getD_eq_getElem?_getD]
        simp [hxm]
    have hdp : x ∈ dpKeepSet pts t i j ↔
        (x = fm.2.toNat ∨ x ∈ dpKeepSet pts t i fm.2.toNat ∨
          x ∈ dpKeepSet pts t fm.2.toNat j) := by
      rw [dpKeepSet_of_guard pts t i j hg]
      simp [Finset.mem_union, or_assoc]
    rw [hset]
    simp only [List.exists_mem_cons_iff]
    rw [hdp]
    have htauto : ∀ (P1 P2 P3 P4 P5 : Prop),
        (((P1 ∨ P2) ∨ P4 ∨ P3 ∨ P5) ↔ (P2 ∨ (P1 ∨ P3 ∨ P4) ∨ P5)) := by
      intro P1 P2 P3 P4 P5
      tauto
    exact htauto _ _ _ _ _
  | case3 i j stack keep fm hg ih =>
    intro hb x
    rw [simplifyLoop, dif_neg hg]
    rw [ih (fun e he => hb e (List.mem_cons_of_mem _ he)) x]
    have hdp : x ∉ dpKeepSet pts t i j := by
      rw [dpKeepSet_of_not pts t i j hg]
      exact Finset.not_mem_empty x
    simp only [List.exists_mem_cons_iff]
    have htauto : ∀ (P2 P5 : Prop) (P0 : Prop), ¬ P0 →
        ((P2 ∨ P5) ↔ (P2 ∨ P0 ∨ P5)) := by
      intro P2 P5 P0 h0
      tauto
    exact htauto _ _ _ hdp

theorem maskFilter_sublist : ∀ (ks : List Bool) (ps : List Pt),
    (maskFilter ks ps).Sublist ps := by
  intro ks
  induction ks with
  | nil =>
    intro ps
    exact List.nil_sublist ps
  | cons k ks ih =>
    intro ps
    cases ps with
    | nil => exact List.nil_sublist []
    | cons p ps =>
      cases k with
      | true => exact List.Sublist.cons₂ p (ih ps)
      | false => exact List.Sublist.cons p (ih ps)

theorem spacingFilter_sublist (s : ℚ) :
    ∀ (l : List Pt) (prev : Pt), (spacingFilter s prev l).Sublist l := by
  intro l
  induction l with
  | nil =>
    intro prev
    exact List.nil_sublist []
  | cons p rest ih =>
    intro prev
    show (if s ≤ d2 prev p then p :: spacingFilter s p rest
      else spacingFilter s prev rest).Sublist (p :: rest)
    by_cases h : s ≤ d2 prev p
    · rw [if_pos h]
      exact List.Sublist.cons₂ p (ih p)
    · rw [if_neg h]
      exact List.Sublist.cons p (ih prev)

theorem spacingKern_sublist (points : List Pt) (ms : ℚ) :
    (spacingKern points ms).Sublist points := by
  cases points with
  | nil => exact List.nil_sublist []
  | cons p0 rest =>
    show (p0 :: spacingFilter (ms * ms) p0 rest.dropLast).Sublist (p0 :: rest)
    exact List.Sublist.cons₂ p0
      ((spacingFilter_sublist (ms * ms) rest.dropLast p0).trans
        (List.dropLast_sublist rest))

theorem preDownsample_eq (points : List Pt) (ms : ℚ) :
    preDownsample points ms =
      if (spacingKern points ms).getLastD (0, 0) ≠ points.getLastD (0, 0) then
        spacingKern points ms ++ [points.getLastD (0, 0)]
      else spacingKern points ms := rfl

theorem getLastD_mem_getLast? {l : List Pt} (h : l ≠ []) :
    l.getLastD (0, 0) ∈ l.getLast? := by
  cases hq : l.getLast? with
  | none => exact absurd (List.getLast?_eq_none_iff.mp hq) h
  | some x =>
    rw [List.getLastD_eq_getLast?, hq]
    rfl

theorem preDownsample_ne_nil (points : List Pt) (ms : ℚ) (h : points ≠ []) :
    preDownsample points ms ≠ [] := by
  cases points with
  | nil => exact absurd rfl h
  | cons p0 rest =>
    rw [preDownsample_eq]
    by_cases hc : (spacingKern (p0 :: rest) ms).getLastD (0, 0) ≠
        ((p0 :: rest) : List Pt).getLastD (0, 0)
    · rw [if_pos hc]
      simp
    · rw [if_neg hc]
      show (p0 :: spacingFilter (ms * ms) p0 rest.dropLast) ≠ []
      simp

theorem preDownsample_sublist (points : List Pt) (ms : ℚ) :
    (preDownsample points ms).Sublist points := by
  rw [preDownsample_eq]
  by_cases hc : (spacingKern points ms).getLastD (0, 0) ≠ points.getLastD (0, 0)
  · rw [if_pos hc]
    cases points with
    | nil => exact absurd rfl hc
    | cons p0 rest =>
      cases rest with
      | nil => exact absurd rfl hc
      | cons r rest =>
        have hkern : (spacingKern (p0 :: r :: rest) ms).Sublist
            ((p0 :: r :: rest) : List Pt).dropLast := by
          show (p0 :: spacingFilter (ms * ms) p0
            ((r :: rest) : List Pt).dropLast).Sublist
            (p0 :: ((r :: rest) : List Pt).dropLast)
          exact List.Sublist.cons₂ p0 (spacingFilter_sublist (ms * ms) _ p0)
        have hmem := getLastD_mem_getLast? (l := p0 :: r :: rest) (by simp)
        have hsub := List.Sublist.append hkern
          (List.Sublist.refl [((p0 :: r :: rest) : List Pt).getLastD (0, 0)])
        rw [List.dropLast_append_getLast? _ hmem] at hsub
        exact hsub
  · rw [if_neg hc]
    exact spacingKern_sublist points ms

theorem pairwise_lt_map_sub_one :
    ∀ (is : List Nat), (∀ x ∈ is, 1 ≤ x) → List.Pairwise (· < ·) is →
      List.Pairwise (· < ·) (is.map (fun i => i - 1)) := by
  intro is
  induction is with
  | nil =>
    intro _ _
    exact List.Pairwise.nil
  | cons i is ih =>
    intro h1 hp
    rw [List.map_cons, List.pairwise_cons]
    obtain ⟨hhead, htail⟩ := List.pairwise_cons.mp hp
    constructor
    · intro y hy
      rw [List.mem_map] at hy
      obtain ⟨z, hz, hzy⟩ := hy
      have hz1 := hhead z hz
      have hi1 := h1 i (List.mem_cons_self i is)
      omega
    · exact ih (fun x hx => h1 x (List.mem_cons_of_mem i hx)) htail

theorem getD_map_sublist {α : Type} (d : α) :
    ∀ (l : List α) (is : List Nat), List.Pairwise (· < ·) is →
      (∀ i ∈ is, i < l.length) →
      (is.map (fun i => l.getD i d)).Sublist l := by
  intro l
  induction l with
  | nil =>
    intro is hp hb
    cases is with
    | nil => exact List.nil_sublist []
    | cons i is => exact absurd (hb i (List.mem_cons_self i is)) (by simp)
  | cons a l ih =>
    intro is hp hb
    cases is with
    | nil => exact List.nil_sublist (a :: l)
    | cons i is =>
      cases i with
      | zero =>
        rw [List.map_cons]
        have hge : ∀ x ∈ is, 1 ≤ x := by
          intro x hx
          have := (List.pairwise_cons.mp hp).1 x hx
          omega
        have hmap : is.map (fun i => (a :: l).getD i d) =
            (is.map (fun i => i - 1)).map (fun i => l.getD i d) := by
          rw [List.map_map]
          refine List.map_congr_left ?_
          intro x hx
          have h1 := hge x hx
          cases x with
          | zero => omega
          | succ x => rfl
        rw [hmap]
        refine List.Sublist.cons₂ a (ih _ ?_ ?_)
        · exact pairwise_lt_map_sub_one is hge (List.pairwise_cons.mp hp).2
        · intro x hx
          rw [List.mem_map] at hx
          obtain ⟨z, hz, hzx⟩ := hx
          have hzb := hb z (List.mem_cons_of_mem _ hz)
          have h1 := hge z hz
          simp only [List.length_cons] at hzb
          omega
      | succ i0 =>
        have hge : ∀ x ∈ (i0 + 1) :: is, 1 ≤ x := by
          intro x hx
          rcases List.mem_cons.mp hx with h | h
          · omega
          · have := (List.pairwise_cons.mp hp).1 x h
            omega
        have hmap : ((i0 + 1) :: is).map (fun i => (a :: l).getD i d) =
            (((i0 + 1) :: is).map (fun i => i - 1)).map (fun i => l.getD i d) := by
          rw [List.map_map]
          refine List.map_congr_left ?_
          intro x hx
          have h1 := hge x hx
          cases x with
          | zero => omega
          | succ x => rfl
        rw [hmap]
        refine List.Sublist.cons a (ih _ ?_ ?_)
        · exact pairwise_lt_map_sub_one _ hge hp
        · intro x hx
          rw [List.mem_map] at hx
          obtain ⟨z, hz, hzx⟩ := hx
          have hzb := hb z hz
          have h1 := hge z hz
          simp only [List.length_cons] at hzb
          omega

theorem headD_eq_getD {α : Type} (l : List α) (d : α) : l.headD d = l.getD 0 d := by
  cases l <;> rfl

theorem pyRange_pairwise (s m k : Nat) (hk : 0 < k) :
    List.Pairwise (· < ·) (pyRange s m k) := by
  rw [pyRange]
  exact List.pairwise_lt_range' _ _ _ hk

theorem pyRange_mem_lt (s m k : Nat) (hk : 0 < k) :
    ∀ x ∈ pyRange s m k, s ≤ x ∧ x < m := by
  intro x hx
  rw [pyRange, List.mem_range'] at hx
  obtain ⟨i, hi, hx⟩ := hx
  subst hx
  have hc : ((m - s + k - 1) / k) * k ≤ m - s + k - 1 := Nat.div_mul_le_self _ _
  have hck : 1 * k ≤ ((m - s + k - 1) / k) * k :=
    Nat.mul_le_mul_right k (by omega)
  have him : i * k ≤ ((m - s + k - 1) / k - 1) * k :=
    Nat.mul_le_mul_right k (by omega)
  rw [Nat.sub_mul, Nat.one_mul] at him
  have hki : k * i = i * k := Nat.mul_comm k i
  constructor
  · omega
  · omega

theorem stride_pick_sublist (stepN : Nat) (hs : 0 < stepN) :
    ∀ (l : List Pt), l ≠ [] →
      (if (l.headD (0, 0) :: (pyRange 1 (l.length - 1) stepN).map
            (fun i => l.getD i (0, 0))).getLastD (0, 0) ≠ l.getLastD (0, 0) then
        (l.headD (0, 0) :: (pyRange 1 (l.length - 1) stepN).map
            (fun i => l.getD i (0, 0))) ++ [l.getLastD (0, 0)]
      else l.headD (0, 0) :: (pyRange 1 (l.length - 1) stepN).map
            (fun i => l.getD i (0, 0))).Sublist l := by
  intro l hl
  have hpair : List.Pairwise (· < ·) (0 :: pyRange 1 (l.length - 1) stepN) := by
    rw [List.pairwise_cons]
    refine ⟨?_, pyRange_pairwise 1 (l.length - 1) stepN hs⟩
    intro x hx
    have := (pyRange_mem_lt 1 (l.length - 1) stepN hs x hx).1
    omega
  have htr0 : l.headD (0, 0) :: (pyRange 1 (l.length - 1) stepN).map
      (fun i => l.getD i (0, 0)) =
      (0 :: pyRange 1 (l.length - 1) stepN).map (fun i => l.getD i (0, 0)) := by
    rw [List.map_cons, headD_eq_getD]
  by_cases happ : (l.headD (0, 0) :: (pyRange 1 (l.length - 1) stepN).map
      (fun i => l.getD i (0, 0))).getLastD (0, 0) ≠ l.getLastD (0, 0)
  · rw [if_pos happ]
    have hlen2 : 2 ≤ l.length := by
      by_contra hcon
      have h1 : l.length = 1 := by
        have := List.length_pos.mpr hl
        omega
      obtain ⟨a, ha⟩ := List.length_eq_one.mp h1
      subst ha
      refine happ ?_
      have hemp : pyRange 1 (([a] : List Pt).length - 1) stepN = [] := by
        rw [pyRange]
        have hz : (([a] : List Pt).length - 1 - 1 + stepN - 1) / stepN = 0 := by
          apply Nat.div_eq_of_lt
          simp only [List.length_singleton]
          omega
        rw [hz]
        rfl
      rw [hemp]
      rfl
    have hboundall : ∀ i ∈ 0 :: pyRange 1 (l.length - 1) stepN,
        i < l.dropLast.length := by
      intro i hi
      rw [List.length_dropLast]
      rcases List.mem_cons.mp hi with h0 | hmem
      · omega
      · exact (pyRange_mem_lt 1 (l.length - 1) stepN hs i hmem).2
    have hcongr : (0 :: pyRange 1 (l.length - 1) stepN).map
        (fun i => l.getD i (0, 0)) =
        (0 :: pyRange 1 (l.length - 1) stepN).map
          (fun i => l.dropLast.getD i (0, 0)) := by
      refine List.map_congr_left ?_
      intro i hi
      have hilt : i < l.dropLast.length := hboundall i hi
      have hill : i < l.length := by
        rw [List.length_dropLast] at hilt
        omega
      rw [List.getD_eq_getElem?_getD, List.getD_eq_getElem?_getD,
        List.getElem?_eq_getElem hill, List.getElem?_eq_getElem hilt,
        List.getElem_dropLast]
    have hdl : ((0 :: pyRange 1 (l.length - 1) stepN).map
        (fun i => l.getD i (0, 0))).Sublist l.dropLast := by
      rw [hcongr]
      exact getD_map_sublist (0, 0) l.dropLast _ hpair hboundall
    have hmem := getLastD_mem_getLast? hl
    have hsub := List.Sublist.append hdl (List.Sublist.refl [l.getLastD (0, 0)])
    rw [List.dropLast_append_getLast? _ hmem] at hsub
    rw [htr0]
    exact hsub
  · rw [if_neg happ]
    rw [htr0]
    refine getD_map_sublist (0, 0) l _ hpair ?_
    intro i hi
    rcases List.mem_cons.mp hi with h0 | hmem
    · have := List.length_pos.mpr hl
      omega
    · have := (pyRange_mem_lt 1 (l.length - 1) stepN hs i hmem).2
      omega

theorem simplify_fast_out_sublist (points : List Pt) (ms : ℚ) (mp : ℤ)
    (out : List Pt) (h : _simplify_line_fast points ms mp = some out) :
    out.Sublist points := by
  by_cases h2 : points.length ≤ 2
  · simp only [_simplify_line_fast, if_pos h2, Option.some.injEq] at h
    subst h
    exact List.Sublist.refl points
  · have hne : points ≠ [] := by
      intro hnil
      rw [hnil] at h2
      exact h2 (by simp)
    by_cases hle : ((preDownsample points ms).length : ℤ) ≤ mp
    · simp only [_simplify_line_fast, if_neg h2, if_pos hle, Option.some.injEq] at h
      subst h
      exact preDownsample_sublist points ms
    · by_cases hmp2 : mp = 2
      · simp only [_simplify_line_fast, if_neg h2, if_neg hle, if_pos hmp2] at h
        exact absurd h (by simp)
      · have hs : 0 < (if Int.ceil ((((preDownsample points ms).length : ℚ) - 2) /
            ((mp : ℚ) - 2)) < 1 then (1 : ℤ)
            else Int.ceil ((((preDownsample points ms).length : ℚ) - 2) /
              ((mp : ℚ) - 2))).toNat := by
          by_cases hlt : Int.ceil ((((preDownsample points ms).length : ℚ) - 2) /
              ((mp : ℚ) - 2)) < 1
          · rw [if_pos hlt]
            norm_num
          · rw [if_neg hlt]
            omega
        simp only [_simplify_line_fast, if_neg h2, if_neg hle, if_neg hmp2,
          Option.some.injEq] at h
        subst h
        exact (stride_pick_sublist _ hs (preDownsample points ms)
          (preDownsample_ne_nil points ms hne)).trans
          (preDownsample_sublist points ms)

/-- C9: both simplifiers return inputs of at most 2 points unchanged, and
every returned output is a `List.Sublist` of the input — points keep their
original relative order and no point is synthesized.  The fast simplifier's
output is read through the `some` constructor since its `maxPoints = 2`
stride computation can raise (claim C10) instead of returning. -/
theorem claim_C9_subsequence (points : List Pt) (tol min_spacing : ℚ)
    (max_points : ℤ) :
    (points.length ≤ 2 →
      _simplify_line points tol = points ∧
      _simplify_line_fast points min_spacing max_points = some points) ∧
    (_simplify_line points tol).Sublist points ∧
    (∀ out, _simplify_line_fast points min_spacing max_points = some out →
      out.Sublist points) := by
  refine ⟨?_, ?_, ?_⟩
  · intro h2
    constructor
    · rw [_simplify_line, if_pos h2]
    · simp only [_simplify_line_fast, if_pos h2]
  · by_cases h2 : points.length ≤ 2
    · rw [_simplify_line, if_pos h2]
    · rw [_simplify_line, if_neg h2]
      exact maskFilter_sublist _ points
  · intro out h
    exact simplify_fast_out_sublist points min_spacing max_points out h

/-- C9 witness: the unchanged-return clause at a concrete 2-point polyline. -/
theorem claim_C9_subsequence_witness :
    ([((0 : ℚ), (0 : ℚ)), (1, 1)] : List Pt).length ≤ 2 ∧
    (_simplify_line [((0 : ℚ), (0 : ℚ)), (1, 1)] 1 = [((0 : ℚ), (0 : ℚ)), (1, 1)] ∧
      _simplify_line_fast [((0 : ℚ), (0 : ℚ)), (1, 1)] 1 3 =
        some [((0 : ℚ), (0 : ℚ)), (1, 1)]) :=
  ⟨by decide, (claim_C9_subsequence [((0 : ℚ), (0 : ℚ)), (1, 1)] 1 1 3).1 (by decide)⟩

theorem simplifyKeep_length (points : List Pt) (t : ℚ) :
    (simplifyKeep points t).length = points.length := by
  rw [simplifyKeep, simplifyLoop_length]
  simp

theorem initMask_getD (n x : Nat) (hn : 1 ≤ n) :
    ((((List.replicate n false).set 0 true).set (n - 1) true).getD x false = true) ↔
      (x = 0 ∨ x = n - 1) := by
  by_cases hx1 : x = n - 1
  · subst hx1
    rw [List.getD_eq_getElem?_getD, List.getElem?_set_eq (by simp; omega)]
    simp
  · rw [List.getD_eq_getElem?_getD, List.getElem?_set_ne (Ne.symm hx1)]
    by_cases hx0 : x = 0
    · subst hx0
      rw [List.getElem?_set_eq (by simp; omega)]
      simp
    · rw [List.getElem?_set_ne (Ne.symm hx0)]
      simp only [List.getElem?_replicate]
      constructor
      · intro hcon
        by_cases hxn : x < n
        · rw [if_pos hxn] at hcon
          simp at hcon
        · rw [if_neg hxn] at hcon
          simp at hcon
      · intro hcon
        rcases hcon with h | h
        · exact absurd h hx0
        · exact absurd h hx1

theorem simplifyKeep_char (points : List Pt) (t : ℚ) (hn : 1 ≤ points.length) :
    ∀ x, ((simplifyKeep points t).getD x false = true ↔
      (x = 0 ∨ x = points.length - 1 ∨
        x ∈ dpKeepSet points t 0 (points.length - 1))) := by
  intro x
  have hb : ∀ e ∈ [((0 : Nat), points.length - 1)],
      e.2 < ((((List.replicate points.length false).set 0 true).set
        (points.length - 1) true)).length := by
    intro e he
    rw [List.mem_singleton] at he
    subst he
    simp
    omega
  rw [simplifyKeep, simplifyLoop_spec points t _ _ hb x,
    initMask_getD points.length x hn]
  constructor
  · rintro ((h | h) | ⟨e, he, hmem⟩)
    · exact Or.inl h
    · exact Or.inr (Or.inl h)
    · rw [List.mem_singleton] at he
      subst he
      exact Or.inr (Or.inr hmem)
  · rintro (h | h | h)
    · exact Or.inl (Or.inl h)
    · exact Or.inl (Or.inr h)
    · exact Or.inr ⟨(0, points.length - 1), List.mem_singleton.mpr rfl, h⟩

theorem dpKeepSet_discard (pts : List Pt) (t : ℚ) :
    ∀ (d i j : Nat), j - i ≤ d → ∀ x, i < x → x < j →
      x ∉ dpKeepSet pts t i j →
      ∃ a b, i ≤ a ∧ a < x ∧ x < b ∧ b ≤ j ∧
        (a = i ∨ a ∈ dpKeepSet pts t i j) ∧
        (b = j ∨ b ∈ dpKeepSet pts t i j) ∧
        (∀ y, a < y → y < b → y ∉ dpKeepSet pts t i j) ∧
        _distance_sq_point_to_segment (pts.getD x (0, 0)) (pts.getD a (0, 0))
          (pts.getD b (0, 0)) ≤ t := by
  intro d
  induction d with
  | zero =>
    intro i j hd x hix hxj _
    exact absurd hd (by omega)
  | succ d ih =>
    intro i j hd x hix hxj hxmem
    by_cases hg : t < (findMax pts i j).1 ∧ (findMax pts i j).2 ≠ -1
    · obtain ⟨hq1, hq2⟩ := findMax_idx_bounds pts i j hg.2
      rw [dpKeepSet_of_guard pts t i j hg] at hxmem
      have hxq : x ≠ (findMax pts i j).2.toNat := fun hcon => hxmem
        (Finset.mem_union_left _ (Finset.mem_union_left _
          (Finset.mem_singleton.mpr hcon)))
      have hxL : x ∉ dpKeepSet pts t i (findMax pts i j).2.toNat := fun hcon =>
        hxmem (Finset.mem_union_left _ (Finset.mem_union_right _ hcon))
      have hxR : x ∉ dpKeepSet pts t (findMax pts i j).2.toNat j := fun hcon =>
        hxmem (Finset.mem_union_right _ hcon)
      rcases Nat.lt_trichotomy x (findMax pts i j).2.toNat with hlt | heq | hgt
      · obtain ⟨a, b, ha1, ha2, hb3, hb4, haI, hbI, hnone, hdist⟩ :=
          ih i (findMax pts i j).2.toNat (by omega) x hix hlt hxL
        refine ⟨a, b, ha1, ha2, hb3, by omega, ?_, ?_, ?_, hdist⟩
        · rcases haI with h | h
          · exact Or.inl h
          · refine Or.inr ?_
            rw [dpKeepSet_of_guard pts t i j hg]
            exact Finset.mem_union_left _ (Finset.mem_union_right _ h)
        · rcases hbI with h | h
          · refine Or.inr ?_
            rw [dpKeepSet_of_guard pts t i j hg, h]
            exact Finset.mem_union_left _ (Finset.mem_union_left _
              (Finset.mem_singleton_self _))
          · refine Or.inr ?_
            rw [dpKeepSet_of_guard pts t i j hg]
            exact Finset.mem_union_left _ (Finset.mem_union_right _ h)
        · intro y hy1 hy2 hymem
          rw [dpKeepSet_of_guard pts t i j hg] at hymem
          rcases Finset.mem_union.mp hymem with hy | hy
          · rcases Finset.mem_union.mp hy with hy2m | hy2m
            · rw [Finset.mem_singleton] at hy2m
              omega
            · exact hnone y hy1 hy2 hy2m
          · have := dpKeepSet_subset pts t (j - (findMax pts i j).2.toNat)
              (findMax pts i j).2.toNat j (le_refl _) y hy
            omega
      · exact absurd heq hxq
      · obtain ⟨a, b, ha1, ha2, hb3, hb4, haI, hbI, hnone, hdist⟩ :=
          ih (findMax pts i j).2.toNat j (by omega) x hgt hxj hxR
        refine ⟨a, b, by omega, ha2, hb3, hb4, ?_, ?_, ?_, hdist⟩
        · rcases haI with h | h
          · refine Or.inr ?_
            rw [dpKeepSet_of_guard pts t i j hg, h]
            exact Finset.mem_union_left _ (Finset.mem_union_left _
              (Finset.mem_singleton_self _))
          · refine Or.inr ?_
            rw [dpKeepSet_of_guard pts t i j hg]
            exact Finset.mem_union_right _ h
        · rcases hbI with h | h
          · exact Or.inl h
          · refine Or.inr ?_
            rw [dpKeepSet_of_guard pts t i j hg]
            exact Finset.mem_union_right _ h
        · intro y hy1 hy2 hymem
          rw [dpKeepSet_of_guard pts t i j hg] at hymem
          rcases Finset.mem_union.mp hymem with hy | hy
          · rcases Finset.mem_union.mp hy with hy2m | hy2m
            · rw [Finset.mem_singleton] at hy2m
              omega
            · have := dpKeepSet_subset pts t ((findMax pts i j).2.toNat - i) i
                (findMax pts i j).2.toNat (le_refl _) y hy2m
              omega
          · exact hnone y hy1 hy2 hy
    · have hij2 : i + 1 < j := by omega
      obtain ⟨m, hfm, him, hmj, hmax, _⟩ := findMax_spec pts i j hij2
      have hle : (findMax pts i j).1 ≤ t := by
        by_contra hcon
        refine hg ⟨lt_of_not_le hcon, ?_⟩
        rw [hfm]
        show ((m : ℤ)) ≠ -1
        omega
      refine ⟨i, j, le_refl i, hix, hxj, le_refl j, Or.inl rfl, Or.inl rfl,
        ?_, ?_⟩
      · intro y _ _ hymem
        rw [dpKeepSet_of_not pts t i j hg] at hymem
        exact absurd hymem (Finset.not_mem_empty y)
      · have hxd := hmax x hix hxj
        have hfst : (findMax pts i j).1 =
            _distance_sq_point_to_segment (pts.getD m (0, 0))
              (pts.getD i (0, 0)) (pts.getD j (0, 0)) := by
          rw [hfm]
        rw [hfst] at hle
        exact le_trans hxd hle

theorem maskFilter_head? (ks : List Bool) (ps : List Pt)
    (h : ks.getD 0 false = true) : (maskFilter ks ps).head? = ps.head? := by
  cases ks with
  | nil => exact absurd h (by decide)
  | cons k ks =>
    have hk : k = true := h
    subst hk
    cases ps with
    | nil => rfl
    | cons p ps => rfl

theorem maskFilter_mem : ∀ (ks : List Bool) (ps : List Pt) (x : Nat),
    ks.getD x false = true → x < ps.length →
    ps.getD x (0, 0) ∈ maskFilter ks ps := by
  intro ks
  induction ks with
  | nil =>
    intro ps x hk _
    rw [List.getD_nil] at hk
    exact absurd hk (by decide)
  | cons k ks ih =>
    intro ps x hk hx
    cases ps with
    | nil => simp at hx
    | cons p ps =>
      cases x with
      | zero =>
        have hkt : k = true := hk
        subst hkt
        show ((p :: ps) : List Pt).getD 0 (0, 0) ∈ p :: maskFilter ks ps
        exact List.mem_cons_self _ _
      | succ x =>
        have hk2 : ks.getD x false = true := hk
        have hx2 : x < ps.length := by
          simp only [List.length_cons] at hx
          omega
        have hmem := ih ps x hk2 hx2
        cases k with
        | true =>
          show ((p :: ps) : List Pt).getD (x + 1) (0, 0) ∈ p :: maskFilter ks ps
          exact List.mem_cons_of_mem p hmem
        | false =>
          show ((p :: ps) : List Pt).getD (x + 1) (0, 0) ∈ maskFilter ks ps
          exact hmem

theorem maskIdx_pairwise (ks : List Bool) (n : Nat) :
    List.Pairwise (· < ·) (maskIdx ks n) := by
  rw [maskIdx]
  exact List.Pairwise.sublist (List.filter_sublist _) (List.pairwise_lt_range n)

theorem mem_maskIdx (ks : List Bool) (n x : Nat) :
    x ∈ maskIdx ks n ↔ x < n ∧ ks.getD x false = true := by
  rw [maskIdx, List.mem_filter, List.mem_range]

theorem maskIdx_getD_lt (ks : List Bool) (n : Nat) :
    ∀ r s, r < s → s < (maskIdx ks n).length →
      (maskIdx ks n).getD r 0 < (maskIdx ks n).getD s 0 := by
  intro r s hrs hs
  have hp := maskIdx_pairwise ks n
  rw [List.pairwise_iff_getElem] at hp
  have hr : r < (maskIdx ks n).length := by omega
  rw [List.getD_eq_getElem?_getD, List.getElem?_eq_getElem hr,
    List.getD_eq_getElem?_getD, List.getElem?_eq_getElem hs]
  exact hp r s hr hs hrs

theorem maskIdx_rank (ks : List Bool) (n x : Nat) (h : x ∈ maskIdx ks n) :
    ∃ c, c < (maskIdx ks n).length ∧ (maskIdx ks n).getD c 0 = x := by
  obtain ⟨c, hc, hx⟩ := List.mem_iff_getElem.mp h
  refine ⟨c, hc, ?_⟩
  rw [List.getD_eq_getElem?_getD, List.getElem?_eq_getElem hc]
  exact hx

theorem maskIdx_getD_mem (ks : List Bool) (n : Nat) (r : Nat)
    (h : r < (maskIdx ks n).length) : (maskIdx ks n).getD r 0 ∈ maskIdx ks n := by
  rw [List.getD_eq_getElem?_getD, List.getElem?_eq_getElem h]
  exact List.getElem_mem h

theorem maskIdx_getD_zero (ks : List Bool) (n : Nat) (h0 : ks.getD 0 false = true)
    (hn : 0 < n) : (maskIdx ks n).getD 0 0 = 0 := by
  have hmem : 0 ∈ maskIdx ks n := (mem_maskIdx ks n 0).mpr ⟨hn, h0⟩
  obtain ⟨c, hc, hcx⟩ := maskIdx_rank ks n 0 hmem
  cases c with
  | zero => exact hcx
  | succ c =>
    have := maskIdx_getD_lt ks n 0 (c + 1) (by omega) hc
    omega

theorem maskIdx_getD_last (ks : List Bool) (n : Nat)
    (hlast : ks.getD (n - 1) false = true) (hn : 0 < n) :
    (maskIdx ks n).getD ((maskIdx ks n).length - 1) 0 = n - 1 := by
  have hmem : (n - 1) ∈ maskIdx ks n :=
    (mem_maskIdx ks n (n - 1)).mpr ⟨by omega, hlast⟩
  obtain ⟨c, hc, hcx⟩ := maskIdx_rank ks n (n - 1) hmem
  rcases Nat.lt_trichotomy c ((maskIdx ks n).length - 1) with hlt | heq | hgt
  · have hmono := maskIdx_getD_lt ks n c ((maskIdx ks n).length - 1) hlt
      (by omega)
    have hmem2 := maskIdx_getD_mem ks n ((maskIdx ks n).length - 1) (by omega)
    have hbound := ((mem_maskIdx ks n _).mp hmem2).1
    omega
  · rw [← heq]
    exact hcx
  · omega

theorem maskIdx_cons (k : Bool) (ks : List Bool) (n : Nat) :
    maskIdx (k :: ks) (n + 1) =
      (if k then [0] else []) ++ (maskIdx ks n).map Nat.succ := by
  rw [maskIdx, maskIdx, List.range_succ_eq_map, List.filter_cons,
    List.filter_map]
  have hcngr : List.filter ((fun x => ((k :: ks) : List Bool).getD x false) ∘
      Nat.succ) (List.range n) = List.filter (fun x => ks.getD x false)
      (List.range n) := by
    refine List.filter_congr ?_
    intro x _
    rfl
  rw [hcngr]
  cases k with
  | true =>
    rw [if_pos (show ((true :: ks) : List Bool).getD 0 false = true from rfl),
      if_pos (show true = true from rfl), List.singleton_append]
  | false =>
    rw [if_neg (show ¬ ((false :: ks) : List Bool).getD 0 false = true from
      by simp), if_neg (show ¬ false = true from by simp), List.nil_append]

theorem maskFilter_eq_map : ∀ (ks : List Bool) (ps : List Pt),
    ks.length = ps.length →
    maskFilter ks ps = (maskIdx ks ps.length).map (fun x => ps.getD x (0, 0)) := by
  intro ks
  induction ks with
  | nil =>
    intro ps hlen
    obtain rfl := List.length_eq_zero.mp hlen.symm
    rfl
  | cons k ks ih =>
    intro ps hlen
    cases ps with
    | nil => simp at hlen
    | cons p ps =>
      have hlen2 : ks.length = ps.length := by
        simp only [List.length_cons] at hlen
        omega
      have hmm : ((maskIdx ks ps.length).map Nat.succ).map
          (fun x => ((p :: ps) : List Pt).getD x (0, 0)) =
          (maskIdx ks ps.length).map (fun x => ps.getD x (0, 0)) := by
        rw [List.map_map]
        refine List.map_congr_left ?_
        intro x _
        rfl
      cases k with
      | true =>
        show p :: maskFilter ks ps =
          (maskIdx (true :: ks) (((p :: ps) : List Pt)).length).map
            (fun x => ((p :: ps) : List Pt).getD x (0, 0))
        rw [show (((p :: ps) : List Pt)).length = ps.length + 1 from rfl,
          maskIdx_cons, if_pos rfl, List.singleton_append, List.map_cons, hmm,
          ih ps hlen2]
        rfl
      | false =>
        show maskFilter ks ps =
          (maskIdx (false :: ks) (((p :: ps) : List Pt)).length).map
            (fun x => ((p :: ps) : List Pt).getD x (0, 0))
        rw [show (((p :: ps) : List Pt)).length = ps.length + 1 from rfl,
          maskIdx_cons, if_neg (by simp), List.nil_append, hmm, ih ps hlen2]

theorem getLast?_eq_getD {l : List Pt} (h : l ≠ []) :
    l.getLast? = some (l.getD (l.length - 1) (0, 0)) := by
  have hn : 0 < l.length := List.length_pos.mpr h
  rw [List.getLast?_eq_getElem?, List.getElem?_eq_getElem (by omega),
    List.getD_eq_getElem?_getD, List.getElem?_eq_getElem (by omega)]
  rfl

theorem getD_map_getD (ps : List Pt) (ms : List Nat) (r : Nat)
    (h : r < ms.length) :
    (ms.map (fun x => ps.getD x (0, 0))).getD r (0, 0) =
      ps.getD (ms.getD r 0) (0, 0) := by
  have h2 : r < (ms.map (fun x => ps.getD x (0, 0))).length := by
    rw [List.length_map]
    exact h
  rw [List.getD_eq_getElem?_getD, List.getElem?_eq_getElem h2, List.getElem_map,
    show ms.getD r 0 = (ms[r]?).getD 0 from List.getD_eq_getElem?_getD ms r 0,
    List.getElem?_eq_getElem h]
  rfl

theorem maskFilter_getLast? (ks : List Bool) (ps : List Pt)
    (hlen : ks.length = ps.length) (hlast : ks.getD (ps.length - 1) false = true)
    (hne : ps ≠ []) : (maskFilter ks ps).getLast? = ps.getLast? := by
  have hn : 0 < ps.length := List.length_pos.mpr hne
  have hmem : ps.length - 1 ∈ maskIdx ks ps.length :=
    (mem_maskIdx ks ps.length (ps.length - 1)).mpr ⟨by omega, hlast⟩
  have hL : 0 < (maskIdx ks ps.length).length := by
    cases hmq : maskIdx ks ps.length with
    | nil =>
      rw [hmq] at hmem
      exact absurd hmem (List.not_mem_nil _)
    | cons a l => simp
  have hmapne : (maskIdx ks ps.length).map (fun x => ps.getD x (0, 0)) ≠ [] := by
    intro hcon
    have hlc := congrArg List.length hcon
    rw [List.length_map, List.length_nil] at hlc
    omega
  rw [maskFilter_eq_map ks ps hlen, getLast?_eq_getD hmapne,
    getLast?_eq_getD hne, List.length_map,
    getD_map_getD ps (maskIdx ks ps.length) _ (by omega),
    maskIdx_getD_last ks ps.length hlast hn]

/-- C2: on an input with more than 2 points, the exact simplifier returns an
output no longer than the input whose first and last points are the input's
first and last points, and every discarded index x (interior, keep mask
false) has enclosing kept indices a < x < b with no kept index strictly
between them, whose points both appear in the output, such that the squared
distance from point x to the segment a-b is at most tolerance².  The code
compares squared distances against `tolerance * tolerance`, so for a
nonnegative tolerance this is exactly "distance at most tolerance". -/
theorem claim_C2_exact_simplifier (points : List Pt) (tol : ℚ)
    (hn : 2 < points.length) :
    (_simplify_line points tol).length ≤ points.length ∧
    (_simplify_line points tol).head? = points.head? ∧
    (_simplify_line points tol).getLast? = points.getLast? ∧
    (∀ x, 0 < x → x + 1 < points.length →
      (simplifyKeep points (tol * tol)).getD x false = false →
      ∃ a b, a < x ∧ x < b ∧ b < points.length ∧
        (simplifyKeep points (tol * tol)).getD a false = true ∧
        (simplifyKeep points (tol * tol)).getD b false = true ∧
        points.getD a (0, 0) ∈ _simplify_line points tol ∧
        points.getD b (0, 0) ∈ _simplify_line points tol ∧
        (∀ y, a < y → y < b →
          (simplifyKeep points (tol * tol)).getD y false = false) ∧
        _distance_sq_point_to_segment (points.getD x (0, 0))
          (points.getD a (0, 0)) (points.getD b (0, 0)) ≤ tol * tol) := by
  have hn1 : 1 ≤ points.length := by omega
  have hsimp : _simplify_line points tol =
      maskFilter (simplifyKeep points (tol * tol)) points := by
    rw [_simplify_line, if_neg (by omega)]
  have hchar := simplifyKeep_char points (tol * tol) hn1
  have hklen := simplifyKeep_length points (tol * tol)
  have hk0 : (simplifyKeep points (tol * tol)).getD 0 false = true :=
    (hchar 0).mpr (Or.inl rfl)
  have hklast : (simplifyKeep points (tol * tol)).getD (points.length - 1) false
      = true := (hchar (points.length - 1)).mpr (Or.inr (Or.inl rfl))
  have hne : points ≠ [] := by
    intro hcon
    rw [hcon] at hn
    simp at hn
  refine ⟨?_, ?_, ?_, ?_⟩
  · rw [hsimp]
    exact List.Sublist.length_le (maskFilter_sublist _ points)
  · rw [hsimp]
    exact maskFilter_head? _ points hk0
  · rw [hsimp]
    exact maskFilter_getLast? _ points hklen hklast hne
  · intro x hx0 hxlast hxfalse
    have hxnot : x ∉ dpKeepSet points (tol * tol) 0 (points.length - 1) := by
      intro hcon
      have hcon2 := (hchar x).mpr (Or.inr (Or.inr hcon))
      rw [hcon2] at hxfalse
      exact absurd hxfalse (by simp)
    obtain ⟨a, b, ha0, hax, hxb, hbj, haI, hbI, hnone, hdist⟩ :=
      dpKeepSet_discard points (tol * tol) (points.length - 1) 0
        (points.length - 1) (by omega) x hx0 (by omega) hxnot
    have hka : (simplifyKeep points (tol * tol)).getD a false = true := by
      rcases haI with h | h
      · rw [h]
        exact hk0
      · exact (hchar a).mpr (Or.inr (Or.inr h))
    have hkb : (simplifyKeep points (tol * tol)).getD b false = true := by
      rcases hbI with h | h
      · rw [h]
        exact hklast
      · exact (hchar b).mpr (Or.inr (Or.inr h))
    refine ⟨a, b, hax, hxb, by omega, hka, hkb, ?_, ?_, ?_, hdist⟩
    · rw [hsimp]
      exact maskFilter_mem _ points a hka (by omega)
    · rw [hsimp]
      exact maskFilter_mem _ points b hkb (by omega)
    · intro y hay hyb
      cases hky : (simplifyKeep points (tol * tol)).getD y false with
      | false => rfl
      | true =>
        rcases (hchar y).mp hky with h | h | h
        · omega
        · omega
        · exact absurd h (hnone y hay hyb)

/-- C2 witness: the claim instantiated at a concrete collinear 3-point
polyline with tolerance 1. -/
theorem claim_C2_exact_simplifier_witness :
    2 < ([((0 : ℚ), (0 : ℚ)), (1, 0), (2, 0)] : List Pt).length ∧
    ((_simplify_line [((0 : ℚ), (0 : ℚ)), (1, 0), (2, 0)] 1).length ≤
      ([((0 : ℚ), (0 : ℚ)), (1, 0), (2, 0)] : List Pt).length ∧
    (_simplify_line [((0 : ℚ), (0 : ℚ)), (1, 0), (2, 0)] 1).head? =
      ([((0 : ℚ), (0 : ℚ)), (1, 0), (2, 0)] : List Pt).head? ∧
    (_simplify_line [((0 : ℚ), (0 : ℚ)), (1, 0), (2, 0)] 1).getLast? =
      ([((0 : ℚ), (0 : ℚ)), (1, 0), (2, 0)] : List Pt).getLast? ∧
    (∀ x, 0 < x → x + 1 < ([((0 : ℚ), (0 : ℚ)), (1, 0), (2, 0)] : List Pt).length →
      (simplifyKeep [((0 : ℚ), (0 : ℚ)), (1, 0), (2, 0)] (1 * 1)).getD x false =
        false →
      ∃ a b, a < x ∧ x < b ∧
        b < ([((0 : ℚ), (0 : ℚ)), (1, 0), (2, 0)] : List Pt).length ∧
        (simplifyKeep [((0 : ℚ), (0 : ℚ)), (1, 0), (2, 0)] (1 * 1)).getD a false =
          true ∧
        (simplifyKeep [((0 : ℚ), (0 : ℚ)), (1, 0), (2, 0)] (1 * 1)).getD b false =
          true ∧
        ([((0 : ℚ), (0 : ℚ)), (1, 0), (2, 0)] : List Pt).getD a (0, 0) ∈
          _simplify_line [((0 : ℚ), (0 : ℚ)), (1, 0), (2, 0)] 1 ∧
        ([((0 : ℚ), (0 : ℚ)), (1, 0), (2, 0)] : List Pt).getD b (0, 0) ∈
          _simplify_line [((0 : ℚ), (0 : ℚ)), (1, 0), (2, 0)] 1 ∧
        (∀ y, a < y → y < b →
          (simplifyKeep [((0 : ℚ), (0 : ℚ)), (1, 0), (2, 0)] (1 * 1)).getD y
            false = false) ∧
        _distance_sq_point_to_segment
          (([((0 : ℚ), (0 : ℚ)), (1, 0), (2, 0)] : List Pt).getD x (0, 0))
          (([((0 : ℚ), (0 : ℚ)), (1, 0), (2, 0)] : List Pt).getD a (0, 0))
          (([((0 : ℚ), (0 : ℚ)), (1, 0), (2, 0)] : List Pt).getD b (0, 0)) ≤
          1 * 1)) :=
  ⟨by decide, claim_C2_exact_simplifier [((0 : ℚ), (0 : ℚ)), (1, 0), (2, 0)] 1
    (by decide)⟩

theorem sorted_getD_lt (σ : List Nat) (hp : List.Pairwise (· < ·) σ) :
    ∀ r s, r < s → s < σ.length → σ.getD r 0 < σ.getD s 0 := by
  intro r s hrs hs
  rw [List.pairwise_iff_getElem] at hp
  have hr : r < σ.length := by omega
  rw [List.getD_eq_getElem?_getD, List.getElem?_eq_getElem hr,
    List.getD_eq_getElem?_getD, List.getElem?_eq_getElem hs]
  exact hp r s hr hs hrs

theorem sorted_rank (σ : List Nat) (x : Nat) (h : x ∈ σ) :
    ∃ c, c < σ.length ∧ σ.getD c 0 = x := by
  obtain ⟨c, hc, hx⟩ := List.mem_iff_getElem.mp h
  refine ⟨c, hc, ?_⟩
  rw [List.getD_eq_getElem?_getD, List.getElem?_eq_getElem hc]
  exact hx

theorem sorted_getD_mem (σ : List Nat) (r : Nat) (h : r < σ.length) :
    σ.getD r 0 ∈ σ := by
  rw [List.getD_eq_getElem?_getD, List.getElem?_eq_getElem h]
  exact List.getElem_mem h

set_option maxHeartbeats 1000000 in
/-- The rerun of the worklist recursion on the kept sublist (read off through
a sorted index list σ) keeps every interior rank: at each reachable range the
rescan finds the original strict-earliest maximum again, so the recursion
subdivides all the way down.  `henc` says σ's members strictly inside the
range are exactly the range's recursive kept set. -/
theorem rerun_keep_sorted (points : List Pt) (t : ℚ) (σ : List Nat)
    (hp : List.Pairwise (· < ·) σ) :
    ∀ (d a b : Nat),
      σ.getD b 0 - σ.getD a 0 ≤ d →
      a < b → b < σ.length →
      (∀ y, σ.getD a 0 < y → y < σ.getD b 0 →
        (y ∈ σ ↔ y ∈ dpKeepSet points t (σ.getD a 0) (σ.getD b 0))) →
      dpKeepSet (σ.map (fun x => points.getD x (0, 0))) t a b =
        Finset.Ioo a b := by
  intro d
  induction d with
  | zero =>
    intro a b hd hab hb henc
    have := sorted_getD_lt σ hp a b hab hb
    exact absurd hd (by omega)
  | succ d ih =>
    intro a b hd hab hb henc
    have hija : σ.getD a 0 < σ.getD b 0 := sorted_getD_lt σ hp a b hab hb
    by_cases hg : t < (findMax points (σ.getD a 0) (σ.getD b 0)).1 ∧
        (findMax points (σ.getD a 0) (σ.getD b 0)).2 ≠ -1
    · have hij2 : σ.getD a 0 + 1 < σ.getD b 0 := by
        by_contra hcon
        rw [findMax_of_le points (σ.getD a 0) (σ.getD b 0) (by omega)] at hg
        exact hg.2 rfl
      obtain ⟨q, hfm, hiq, hqj, hmax, hstrict⟩ :=
        findMax_spec points (σ.getD a 0) (σ.getD b 0) hij2
      have hq2 : (findMax points (σ.getD a 0) (σ.getD b 0)).2.toNat = q := by
        rw [hfm]
        exact Int.toNat_natCast q
      have hqdp : q ∈ dpKeepSet points t (σ.getD a 0) (σ.getD b 0) := by
        rw [dpKeepSet_of_guard points t _ _ hg, hq2]
        exact Finset.mem_union_left _ (Finset.mem_union_left _
          (Finset.mem_singleton_self q))
      have hqσ : q ∈ σ := (henc q hiq hqj).mpr hqdp
      obtain ⟨c, hcM, hcq⟩ := sorted_rank σ q hqσ
      have hac : a < c := by
        rcases Nat.lt_trichotomy c a with h | h | h
        · have := sorted_getD_lt σ hp c a h (by omega)
          omega
        · rw [h] at hcq
          omega
        · exact h
      have hcb : c < b := by
        rcases Nat.lt_trichotomy b c with h | h | h
        · have := sorted_getD_lt σ hp b c h (by omega)
          omega
        · rw [← h] at hcq
          omega
        · exact h
      obtain ⟨m2, hfm2, ham2, hm2b, hmax2, hstrict2⟩ :=
        findMax_spec (σ.map (fun x => points.getD x (0, 0))) a b (by omega)
      have hEa : (σ.map (fun x => points.getD x (0, 0))).getD a (0, 0) =
          points.getD (σ.getD a 0) (0, 0) := getD_map_getD points σ a (by omega)
      have hEb : (σ.map (fun x => points.getD x (0, 0))).getD b (0, 0) =
          points.getD (σ.getD b 0) (0, 0) := getD_map_getD points σ b hb
      have hEc : (σ.map (fun x => points.getD x (0, 0))).getD c (0, 0) =
          points.getD (σ.getD c 0) (0, 0) := getD_map_getD points σ c (by omega)
      have hEm2 : (σ.map (fun x => points.getD x (0, 0))).getD m2 (0, 0) =
          points.getD (σ.getD m2 0) (0, 0) := getD_map_getD points σ m2 (by omega)
      have hm2i : σ.getD a 0 < σ.getD m2 0 :=
        sorted_getD_lt σ hp a m2 ham2 (by omega)
      have hm2j : σ.getD m2 0 < σ.getD b 0 := sorted_getD_lt σ hp m2 b hm2b hb
      have hDm2eq : _distance_sq_point_to_segment
          ((σ.map (fun x => points.getD x (0, 0))).getD m2 (0, 0))
          ((σ.map (fun x => points.getD x (0, 0))).getD a (0, 0))
          ((σ.map (fun x => points.getD x (0, 0))).getD b (0, 0)) =
          _distance_sq_point_to_segment (points.getD (σ.getD m2 0) (0, 0))
            (points.getD (σ.getD a 0) (0, 0))
            (points.getD (σ.getD b 0) (0, 0)) := by
        rw [hEa, hEb, hEm2]
      have hDceq : _distance_sq_point_to_segment
          ((σ.map (fun x => points.getD x (0, 0))).getD c (0, 0))
          ((σ.map (fun x => points.getD x (0, 0))).getD a (0, 0))
          ((σ.map (fun x => points.getD x (0, 0))).getD b (0, 0)) =
          _distance_sq_point_to_segment (points.getD q (0, 0))
            (points.getD (σ.getD a 0) (0, 0))
            (points.getD (σ.getD b 0) (0, 0)) := by
        rw [hEa, hEb, hEc, hcq]
      have hgeq : _distance_sq_point_to_segment (points.getD q (0, 0))
          (points.getD (σ.getD a 0) (0, 0)) (points.getD (σ.getD b 0) (0, 0)) ≤
          _distance_sq_point_to_segment (points.getD (σ.getD m2 0) (0, 0))
            (points.getD (σ.getD a 0) (0, 0))
            (points.getD (σ.getD b 0) (0, 0)) := by
        have h1 := hmax2 c hac hcb
        rw [hDceq, hDm2eq] at h1
        exact h1
      have hleq : _distance_sq_point_to_segment
          (points.getD (σ.getD m2 0) (0, 0))
          (points.getD (σ.getD a 0) (0, 0)) (points.getD (σ.getD b 0) (0, 0)) ≤
          _distance_sq_point_to_segment (points.getD q (0, 0))
            (points.getD (σ.getD a 0) (0, 0))
            (points.getD (σ.getD b 0) (0, 0)) := hmax (σ.getD m2 0) hm2i hm2j
      have hm2c : m2 = c := by
        rcases Nat.lt_trichotomy m2 c with h | h | h
        · have hlt : σ.getD m2 0 < q := by
            have := sorted_getD_lt σ hp m2 c h (by omega)
            omega
          have hstr := hstrict (σ.getD m2 0) hm2i hlt
          linarith
        · exact h
        · have h2 := hstrict2 c hac h
          rw [hDceq, hDm2eq] at h2
          linarith
      have hDout_q : _distance_sq_point_to_segment
          ((σ.map (fun x => points.getD x (0, 0))).getD m2 (0, 0))
          ((σ.map (fun x => points.getD x (0, 0))).getD a (0, 0))
          ((σ.map (fun x => points.getD x (0, 0))).getD b (0, 0)) =
          _distance_sq_point_to_segment (points.getD q (0, 0))
            (points.getD (σ.getD a 0) (0, 0))
            (points.getD (σ.getD b 0) (0, 0)) := by
        rw [hDm2eq]
        exact le_antisymm hleq hgeq
      have hfm1 : (findMax points (σ.getD a 0) (σ.getD b 0)).1 =
          _distance_sq_point_to_segment (points.getD q (0, 0))
            (points.getD (σ.getD a 0) (0, 0))
            (points.getD (σ.getD b 0) (0, 0)) := by
        rw [hfm]
      have hgout : t < (findMax (σ.map (fun x => points.getD x (0, 0))) a b).1 ∧
          (findMax (σ.map (fun x => points.getD x (0, 0))) a b).2 ≠ -1 := by
        constructor
        · have hfst : (findMax (σ.map (fun x => points.getD x (0, 0))) a b).1 =
              _distance_sq_point_to_segment (points.getD q (0, 0))
                (points.getD (σ.getD a 0) (0, 0))
                (points.getD (σ.getD b 0) (0, 0)) := by
            rw [hfm2]
            exact hDout_q
          rw [hfst, ← hfm1]
          exact hg.1
        · rw [hfm2]
          show ((m2 : ℤ)) ≠ -1
          omega
      have htoNat : (findMax (σ.map (fun x => points.getD x (0, 0))) a b).2.toNat
          = c := by
        rw [hfm2]
        show ((m2 : ℤ)).toNat = c
        rw [Int.toNat_natCast]
        exact hm2c
      have hencL : ∀ y, σ.getD a 0 < y → y < σ.getD c 0 →
          (y ∈ σ ↔ y ∈ dpKeepSet points t (σ.getD a 0) (σ.getD c 0)) := by
        intro y hy1 hy2
        rw [hcq] at hy2 ⊢
        have hyj : y < σ.getD b 0 := by omega
        rw [henc y hy1 hyj, dpKeepSet_of_guard points t _ _ hg, hq2]
        constructor
        · intro hy
          rcases Finset.mem_union.mp hy with hy2m | hy2m
          · rcases Finset.mem_union.mp hy2m with hy3 | hy3
            · rw [Finset.mem_singleton] at hy3
              exact absurd hy3 (by omega)
            · exact hy3
          · have := dpKeepSet_subset points t (σ.getD b 0 - q) q (σ.getD b 0)
              (le_refl _) y hy2m
            exact absurd this.1 (by omega)
        · intro hy
          exact Finset.mem_union_left _ (Finset.mem_union_right _ hy)
      have hencR : ∀ y, σ.getD c 0 < y → y < σ.getD b 0 →
          (y ∈ σ ↔ y ∈ dpKeepSet points t (σ.getD c 0) (σ.getD b 0)) := by
        intro y hy1 hy2
        rw [hcq] at hy1 ⊢
        have hyi : σ.getD a 0 < y := by omega
        rw [henc y hyi hy2, dpKeepSet_of_guard points t _ _ hg, hq2]
        constructor
        · intro hy
          rcases Finset.mem_union.mp hy with hy2m | hy2m
          · rcases Finset.mem_union.mp hy2m with hy3 | hy3
            · rw [Finset.mem_singleton] at hy3
              exact absurd hy3 (by omega)
            · have := dpKeepSet_subset points t (q - σ.getD a 0) (σ.getD a 0) q
                (le_refl _) y hy3
              exact absurd this.2 (by omega)
          · exact hy2m
        · intro hy
          exact Finset.mem_union_right _ hy
      have ihL := ih a c (by omega) hac (by omega) hencL
      have ihR := ih c b (by omega) hcb hb hencR
      rw [dpKeepSet_of_guard (σ.map (fun x => points.getD x (0, 0))) t a b hgout,
        htoNat, ihL, ihR]
      ext y
      simp only [Finset.mem_union, Finset.mem_singleton, Finset.mem_Ioo]
      omega
    · have hb1 : b = a + 1 := by
        by_contra hcon
        have hr : a + 1 < b := by omega
        have h1 : σ.getD a 0 < σ.getD (a + 1) 0 :=
          sorted_getD_lt σ hp a (a + 1) (by omega) (by omega)
        have h2 : σ.getD (a + 1) 0 < σ.getD b 0 :=
          sorted_getD_lt σ hp (a + 1) b hr hb
        have hmem : σ.getD (a + 1) 0 ∈ σ := sorted_getD_mem σ (a + 1) (by omega)
        have hdp := (henc (σ.getD (a + 1) 0) h1 h2).mp hmem
        rw [dpKeepSet_of_not points t _ _ hg] at hdp
        exact absurd hdp (Finset.not_mem_empty _)
      subst hb1
      have hgout : ¬ (t < (findMax (σ.map (fun x => points.getD x (0, 0))) a
          (a + 1)).1 ∧
          (findMax (σ.map (fun x => points.getD x (0, 0))) a (a + 1)).2 ≠ -1) := by
        rw [findMax_of_le _ a (a + 1) (le_refl _)]
        intro hcon
        exact hcon.2 rfl
      rw [dpKeepSet_of_not _ t a (a + 1) hgout]
      ext y
      rw [Finset.mem_Ioo]
      constructor
      · intro hy
        exact absurd hy (Finset.not_mem_empty y)
      · intro hy
        exact absurd hy (by omega)

theorem maskFilter_true : ∀ (ks : List Bool) (ps : List Pt),
    ps.length ≤ ks.length → (∀ r, r < ps.length → ks.getD r false = true) →
    maskFilter ks ps = ps := by
  intro ks
  induction ks with
  | nil =>
    intro ps hlen _
    cases ps with
    | nil => rfl
    | cons p ps => simp at hlen
  | cons k ks ih =>
    intro ps hlen hall
    cases ps with
    | nil => rfl
    | cons p ps =>
      have hk : k = true := hall 0 (by simp)
      subst hk
      show p :: maskFilter ks ps = p :: ps
      congr 1
      refine ih ps ?_ ?_
      · simp only [List.length_cons] at hlen
        omega
      · intro r hr
        have hall2 := hall (r + 1) (by
          simp only [List.length_cons]
          omega)
        exact hall2

/-- C8: exact simplification is idempotent for a fixed tolerance — running
`_simplify_line` on its own output with the same tolerance returns that
output unchanged.  At most 2 points is the early return; otherwise the
rerun's worklist re-finds each range's original strict-earliest maximum
among the kept points (`rerun_keep_sorted`), so its keep mask is all-true
and the final comprehension is the identity. -/
theorem claim_C8_idempotent (points : List Pt) (tol : ℚ) :
    _simplify_line (_simplify_line points tol) tol = _simplify_line points tol := by
  by_cases h2 : points.length ≤ 2
  · have hid : _simplify_line points tol = points := by
      rw [_simplify_line, if_pos h2]
    rw [hid, hid]
  · have hsimp : _simplify_line points tol =
        maskFilter (simplifyKeep points (tol * tol)) points := by
      rw [_simplify_line, if_neg h2]
    have hunfold : _simplify_line (_simplify_line points tol) tol =
        if (_simplify_line points tol).length ≤ 2 then _simplify_line points tol
        else maskFilter (simplifyKeep (_simplify_line points tol) (tol * tol))
          (_simplify_line points tol) := rfl
    rw [hunfold]
    by_cases hm2 : (_simplify_line points tol).length ≤ 2
    · rw [if_pos hm2]
    · rw [if_neg hm2]
      have hn1 : 1 ≤ points.length := by omega
      have hklen := simplifyKeep_length points (tol * tol)
      have hchar := simplifyKeep_char points (tol * tol) hn1
      have hk0 : (simplifyKeep points (tol * tol)).getD 0 false = true :=
        (hchar 0).mpr (Or.inl rfl)
      have hklast : (simplifyKeep points (tol * tol)).getD
          (points.length - 1) false = true :=
        (hchar (points.length - 1)).mpr (Or.inr (Or.inl rfl))
      have houtlen : (_simplify_line points tol).length =
          (maskIdx (simplifyKeep points (tol * tol)) points.length).length := by
        rw [hsimp, maskFilter_eq_map _ points hklen, List.length_map]
      have hσ0 : (maskIdx (simplifyKeep points (tol * tol))
          points.length).getD 0 0 = 0 :=
        maskIdx_getD_zero _ points.length hk0 (by omega)
      have hσlast : (maskIdx (simplifyKeep points (tol * tol))
          points.length).getD ((maskIdx (simplifyKeep points (tol * tol))
            points.length).length - 1) 0 = points.length - 1 :=
        maskIdx_getD_last _ points.length hklast (by omega)
      have henc0 : ∀ y, (maskIdx (simplifyKeep points (tol * tol))
            points.length).getD 0 0 < y →
          y < (maskIdx (simplifyKeep points (tol * tol)) points.length).getD
            ((maskIdx (simplifyKeep points (tol * tol))
              points.length).length - 1) 0 →
          (y ∈ maskIdx (simplifyKeep points (tol * tol)) points.length ↔
            y ∈ dpKeepSet points (tol * tol)
              ((maskIdx (simplifyKeep points (tol * tol))
                points.length).getD 0 0)
              ((maskIdx (simplifyKeep points (tol * tol)) points.length).getD
                ((maskIdx (simplifyKeep points (tol * tol))
                  points.length).length - 1) 0)) := by
        rw [hσ0, hσlast]
        intro y hy0 hyn
        rw [mem_maskIdx, hchar y]
        constructor
        · rintro ⟨hyn2, (h | h | h)⟩
          · exact absurd h (by omega)
          · exact absurd h (by omega)
          · exact h
        · intro h
          exact ⟨by omega, Or.inr (Or.inr h)⟩
      have hdp := rerun_keep_sorted points (tol * tol)
        (maskIdx (simplifyKeep points (tol * tol)) points.length)
        (maskIdx_pairwise _ points.length) points.length 0
        ((maskIdx (simplifyKeep points (tol * tol)) points.length).length - 1)
        (by rw [hσ0, hσlast]; omega) (by omega) (by omega) henc0
      refine maskFilter_true _ _ ?_ ?_
      · rw [simplifyKeep_length]
      · intro r hr
        rw [simplifyKeep_char (_simplify_line points tol) (tol * tol)
          (by omega) r]
        by_cases hr0 : r = 0
        · exact Or.inl hr0
        · by_cases hrl : r = (_simplify_line points tol).length - 1
          · exact Or.inr (Or.inl hrl)
          · refine Or.inr (Or.inr ?_)
            have hlen2 : (maskFilter (simplifyKeep points (tol * tol))
                points).length =
                (maskIdx (simplifyKeep points (tol * tol))
                  points.length).length := by
              rw [maskFilter_eq_map _ points hklen, List.length_map]
            rw [hsimp, hlen2, maskFilter_eq_map _ points hklen, hdp,
              Finset.mem_Ioo]
            rw [hsimp, hlen2] at hr hrl
            omega
